import Mathlib

/-! wecom-chat-bot: byte segmenter, tag extractor, crypto envelope and signatures.

A shallow embedding of the pure parts of `src/services/llm.js` and
`src/utils/wecomCrypto.js`, and of the signature check of `src/routes/wecom.js`.

JavaScript strings are sequences of UTF-16 code units; a string is modelled as
the list of its code units (`JSString`), a `Buffer` as the list of its bytes
(`Bytes`).
-/

namespace WecomBot

/-- A JavaScript string: the list of its UTF-16 code units. -/
abbrev JSString := List Nat

/-- A Node `Buffer`: the list of its bytes. -/
abbrev Bytes := List Nat

/-- The code units of a Lean string literal (a character outside the Basic Multilingual Plane
becomes a surrogate pair). -/
def js (s : String) : JSString :=
  s.toList.flatMap fun c =>
    if c.toNat < 0x10000 then [c.toNat]
    else [0xD800 + (c.toNat - 0x10000) / 0x400, 0xDC00 + (c.toNat - 0x10000) % 0x400]

/-- Every element is a UTF-16 code unit (below `2^16`). -/
def ValidUnits (s : JSString) : Prop := ∀ u ∈ s, u < 0x10000

instance ValidUnits.decidable (s : JSString) : Decidable (ValidUnits s) := by
  unfold ValidUnits; infer_instance

/-! ## UTF-16 and UTF-8 -/

def isHighSurrogate (u : Nat) : Bool := decide (0xD800 ≤ u) && decide (u ≤ 0xDBFF)

def isLowSurrogate (u : Nat) : Bool := decide (0xDC00 ≤ u) && decide (u ≤ 0xDFFF)

def isSurrogate (u : Nat) : Bool := decide (0xD800 ≤ u) && decide (u ≤ 0xDFFF)

/-- The code points of a string, as the JavaScript string iterator yields them: a high surrogate
followed by a low surrogate is one code point, any other code unit (a lone surrogate too) is a
code point of its own. -/
def codePoints : JSString → List Nat
  | [] => []
  | [u] => [u]
  | u :: v :: rest =>
    if isHighSurrogate u && isLowSurrogate v then
      (0x10000 + (u - 0xD800) * 0x400 + (v - 0xDC00)) :: codePoints rest
    else u :: codePoints (v :: rest)

/-- A string is well formed when it has no lone surrogate (`String.prototype.isWellFormed`). -/
def isWellFormed (s : JSString) : Bool := (codePoints s).all fun c => !isSurrogate c

/-- The UTF-8 bytes Node writes for one code point; a lone surrogate is written as U+FFFD. -/
def utf8EncodeCodePoint (c : Nat) : Bytes :=
  if c < 0x80 then [c]
  else if c < 0x800 then [0xC0 + c / 0x40, 0x80 + c % 0x40]
  else if isSurrogate c then [0xEF, 0xBF, 0xBD]
  else if c < 0x10000 then [0xE0 + c / 0x1000, 0x80 + c / 0x40 % 0x40, 0x80 + c % 0x40]
  else [0xF0 + c / 0x40000, 0x80 + c / 0x1000 % 0x40, 0x80 + c / 0x40 % 0x40, 0x80 + c % 0x40]

/-- `Buffer.from(s, 'utf8')`. -/
def utf8Encode (s : JSString) : Bytes := (codePoints s).flatMap utf8EncodeCodePoint

/-- `Buffer.byteLength(s, 'utf8')`. -/
def byteLength (s : JSString) : Nat := (utf8Encode s).length

/-! ## `splitByBytes` (llm.js, lines 306-324) -/

/-- `s.slice(a, b)` for `0 ≤ a`, `0 ≤ b`. -/
def slice (s : JSString) (a b : Nat) : JSString := (s.drop a).take (b - a)

/-- The `for` loop of `splitByBytes`: the first list argument is what remains of `text` from index
`i` on; the state is `start`, `acc` and `parts`. Returns the final `parts` and `start`. -/
def splitLoop (text : JSString) (maxBytes : Int) :
    List Nat → Nat → Nat → Nat → List JSString → List JSString × Nat
  | [], _, start, _, parts => (parts, start)
  | ch :: rest, i, start, acc, parts =>
    let b := byteLength [ch]
    if ((acc + b : Nat) : Int) > maxBytes then
      splitLoop text maxBytes rest (i + 1) i b (parts ++ [slice text start i])
    else
      splitLoop text maxBytes rest (i + 1) start (acc + b) parts

/-- `splitByBytes(text, maxBytes)`. -/
def splitByBytes (text : JSString) (maxBytes : Int) : List JSString :=
  if text = [] then []
  else
    let r := splitLoop text maxBytes text 0 0 0 []
    if r.2 < text.length then r.1 ++ [text.drop r.2] else r.1

/-- Sum of the byte lengths that `splitByBytes` counts for the code units of `s`. -/
def unitBytes (s : JSString) : Nat := (s.map fun u => byteLength [u]).sum

/-- A segment is within the budget, or is one over-long code unit on its own. -/
def GoodSegment (maxBytes : Int) (seg : JSString) : Prop :=
  (byteLength seg : Int) ≤ maxBytes ∨ ∃ u, seg = [u] ∧ maxBytes < (byteLength [u] : Int)

/-! ## String primitives -/

/-- The ECMAScript `WhiteSpace` and `LineTerminator` code units: what `trim` strips and what `\s`
matches in a regular expression. -/
def isWhitespace (u : Nat) : Bool :=
  u == 0x09 || u == 0x0A || u == 0x0B || u == 0x0C || u == 0x0D || u == 0x20 || u == 0xA0 ||
  u == 0x1680 || (decide (0x2000 ≤ u) && decide (u ≤ 0x200A)) || u == 0x2028 || u == 0x2029 ||
  u == 0x202F || u == 0x205F || u == 0x3000 || u == 0xFEFF

/-- `s.trim()`. -/
def trim (s : JSString) : JSString :=
  ((s.dropWhile isWhitespace).reverse.dropWhile isWhitespace).reverse

/-- Search for `pat` in what remains of a string from index `i` on. -/
def indexOfAux (pat : JSString) : List Nat → Nat → Option Nat
  | [], i => if pat = [] then some i else none
  | c :: rest, i => if pat.isPrefixOf (c :: rest) then some i else indexOfAux pat rest (i + 1)

/-- `s.indexOf(pat, pos)` for `pos ≥ 0`; `none` stands for `-1`. -/
def indexOf (s pat : JSString) (pos : Nat) : Option Nat :=
  indexOfAux pat (s.drop (min pos s.length)) (min pos s.length)

/-! ## `extractCompleteModules` (llm.js, lines 236-273) -/

/-- An extracted module `{ tag, raw }`. -/
structure Module where
  tag : JSString
  raw : JSString
deriving DecidableEq, Repr

/-- The inner `while (true)` loop (lines 251-263), which looks for the closing tag that brings
`depth` back to zero. The state is `searchPos` and `depth`; the result is `foundCloseIdx`, `none`
for `-1`. The loop advances `searchPos` in every round, so `buffer.length + 1` rounds of fuel are
never used up (`findClose_fuel`). -/
def findClose (buffer tagName closeTag : JSString) : Nat → Nat → Nat → Option Nat
  | 0, _, _ => none
  | fuel + 1, searchPos, depth =>
    let nextOpen := indexOf buffer (0x3C :: tagName) searchPos
    match indexOf buffer closeTag searchPos with
    | none => none
    | some nextClose =>
      if (match nextOpen with
          | some o => decide (o < nextClose)
          | none => false) then
        findClose buffer tagName closeTag fuel (nextOpen.getD 0 + 1) (depth + 1)
      else if depth - 1 = 0 then some nextClose
      else findClose buffer tagName closeTag fuel (nextClose + closeTag.length) (depth - 1)

/-- The three ways one round of the outer `while (true)` loop ends. -/
inductive ScanStep where
  /-- One of the three `break`s: the loop is left. -/
  | done : ScanStep
  /-- The `continue` after an empty or closing token: `cursor = gtIdx + 1`. -/
  | skip (cursor : Nat) : ScanStep
  /-- A module is pushed, its range is cut out of the buffer and `cursor = 0`. -/
  | extract (m : Module) (buffer : JSString) : ScanStep
deriving DecidableEq, Repr

/-- The body of the outer loop (lines 240-270) on the state `buffer`, `cursor`. -/
def scanStep (buffer : JSString) (cursor : Nat) : ScanStep :=
  match indexOf buffer [0x3C] cursor with
  | none => .done
  | some openIdx =>
    match indexOf buffer [0x3E] (openIdx + 1) with
    | none => .done
    | some gtIdx =>
      let tagHead := trim (slice buffer (openIdx + 1) gtIdx)
      if tagHead = [] ∨ tagHead.head? = some 0x2F then .skip (gtIdx + 1)
      else
        -- `tagHead.split(/\s+/)[0]`: what precedes the first white space
        let tagName := tagHead.takeWhile fun u => !isWhitespace u
        let closeTag := [0x3C, 0x2F] ++ tagName ++ [0x3E]
        match findClose buffer tagName closeTag (buffer.length + 1) (gtIdx + 1) 1 with
        | none => .done
        | some foundCloseIdx =>
          .extract ⟨tagName, slice buffer (gtIdx + 1) foundCloseIdx⟩
            (slice buffer 0 openIdx ++ buffer.drop (foundCloseIdx + closeTag.length))

/-- The outer loop, with the modules pushed so far. A round either moves `cursor` forward or
shortens `buffer`, so the fuel `extractFuel` is never used up (`extractLoop_fuel`). -/
def extractLoop : Nat → JSString → Nat → List Module → List Module × JSString
  | 0, buffer, _, modules => (modules, buffer)
  | fuel + 1, buffer, cursor, modules =>
    match scanStep buffer cursor with
    | .done => (modules, buffer)
    | .skip c => extractLoop fuel buffer c modules
    | .extract m b => extractLoop fuel b 0 (modules ++ [m])

/-- A bound on the number of rounds of the outer loop from the state `buffer`, `cursor`. -/
def extractFuel (buffer : JSString) (cursor : Nat) : Nat :=
  buffer.length * (buffer.length + 1) + (buffer.length - cursor) + 1

/-- `extractCompleteModules(buffer)`: the pair `{ modules, remainder }`. -/
def extractCompleteModules (buffer : JSString) : List Module × JSString :=
  extractLoop (extractFuel buffer 0) buffer 0 []

/-- The text `"<t><t>x</t>y</t>"`. -/
def nestedInput (t x y : JSString) : JSString :=
  0x3C :: (t ++ 0x3E :: 0x3C :: (t ++ 0x3E :: (x ++ 0x3C :: 0x2F :: (t ++ 0x3E ::
    (y ++ 0x3C :: 0x2F :: (t ++ [0x3E]))))))

/-- The module whose opening token starts at index `k` of `buffer`, when there is a `<` at `k`
and the loop body, run with `cursor = k`, finds its balancing closing tag. -/
def moduleAt (buffer : JSString) (k : Nat) : Option Module :=
  if indexOf buffer [0x3C] k = some k then
    match scanStep buffer k with
    | .extract m _ => some m
    | _ => none
  else none

/-- From the state `buffer`, `cursor` the loop leaves without pushing a module. -/
def Quiet (buffer : JSString) (cursor : Nat) : Prop :=
  ∀ (fuel : Nat) (modules : List Module), extractFuel buffer cursor ≤ fuel →
    extractLoop fuel buffer cursor modules = (modules, buffer)

/-! ## `sanitizeModuleText` (llm.js, lines 297-304) -/

/-- `content.replace(/<[^>]*>/g, '')`, read from left to right. The second argument is `none`
outside a token and `some pending` after a `<`, where `pending` is the text read since that `<`:
it is dropped at the next `>`, and kept when the text ends before any `>` (the expression matches
nothing from that `<` on). -/
def removeTags : List Nat → Option JSString → JSString
  | [], none => []
  | [], some pending => pending
  | c :: rest, none =>
    if c = 0x3C then removeTags rest (some [c]) else c :: removeTags rest none
  | c :: rest, some pending =>
    if c = 0x3E then removeTags rest none else removeTags rest (some (pending ++ [c]))

/-- `content.replace(/[ \t]+/g, ' ')`; the flag tells that the previous code unit was a space or
a tab of the run being replaced. -/
def collapseBlanks : List Nat → Bool → JSString
  | [], _ => []
  | c :: rest, inRun =>
    if c = 0x20 ∨ c = 0x09 then
      if inRun then collapseBlanks rest true else 0x20 :: collapseBlanks rest true
    else c :: collapseBlanks rest false

/-- `content.replace(/\r?\n/g, '\n')`. -/
def normalizeNewlines : List Nat → JSString
  | [] => []
  | [c] => [c]
  | c :: d :: rest =>
    if c = 0x0D ∧ d = 0x0A then 0x0A :: normalizeNewlines rest
    else c :: normalizeNewlines (d :: rest)

/-- `sanitizeModuleText(raw)` for a string `raw`. -/
def sanitizeModuleText (raw : JSString) : JSString :=
  trim (normalizeNewlines (collapseBlanks (removeTags raw none) false))

/-! ## The `'data'` handler of `chatStream` (llm.js, lines 137-157) -/

/-- `MAX_SEGMENT_BYTES`. -/
def MAX_SEGMENT_BYTES : Int := 2000

/-- The variables of a streaming session that the handlers share. -/
structure StreamState where
  result : JSString
  chunkBuffer : JSString
  plainBuffer : JSString
deriving DecidableEq, Repr

/-- The state before the first chunk (lines 115-117). -/
def StreamState.init : StreamState := ⟨[], [], []⟩

/-- Lines 137-148 of the `'data'` handler on one chunk: append the chunk to `chunkBuffer`, extract
the complete modules, empty `chunkBuffer` and add the sanitized remainder to `plainBuffer`. Returns
the new state and the modules of this call. -/
def dataStep (s : StreamState) (chunkStr : JSString) : StreamState × List Module :=
  let chunkBuffer := s.chunkBuffer ++ chunkStr
  let r := extractCompleteModules chunkBuffer
  let plainBuffer :=
    if trim r.2 ≠ [] then s.plainBuffer ++ sanitizeModuleText r.2 else s.plainBuffer
  (⟨s.result ++ chunkStr, [], plainBuffer⟩, r.1)

/-- Lines 149-157: the segments handed to `onChunk` for the modules of one call. -/
def moduleSegments (modules : List Module) : List JSString :=
  modules.flatMap fun m =>
    let text := sanitizeModuleText m.raw
    if trim text ≠ [] then splitByBytes text MAX_SEGMENT_BYTES else []

/-- The `'data'` handler run over the chunks of a stream in order: the final state and all the
modules extracted, in order. -/
def feedChunks : StreamState → List JSString → StreamState × List Module
  | s, [] => (s, [])
  | s, chunk :: rest =>
    let r := dataStep s chunk
    let r2 := feedChunks r.1 rest
    (r2.1, r.2 ++ r2.2)

/-! ## UTF-8 decoding (`buf.toString('utf-8')`) -/

/-- The state of the decoder inside a multi-byte sequence: the bits read so far, the number of
continuation bytes still expected and the range allowed for the next byte. -/
structure Utf8Pending where
  cp : Nat
  needed : Nat
  lower : Nat
  upper : Nat
deriving DecidableEq, Repr

/-- A byte read outside a sequence: an ASCII byte is a code point, a lead byte opens a sequence,
any other byte is replaced by U+FFFD. -/
def utf8Lead (b : Nat) : Option Utf8Pending × List Nat :=
  if b < 0x80 then (none, [b])
  else if 0xC2 ≤ b ∧ b ≤ 0xDF then (some ⟨b - 0xC0, 1, 0x80, 0xBF⟩, [])
  else if 0xE0 ≤ b ∧ b ≤ 0xEF then
    (some ⟨b - 0xE0, 2, if b = 0xE0 then 0xA0 else 0x80, if b = 0xED then 0x9F else 0xBF⟩, [])
  else if 0xF0 ≤ b ∧ b ≤ 0xF4 then
    (some ⟨b - 0xF0, 3, if b = 0xF0 then 0x90 else 0x80, if b = 0xF4 then 0x8F else 0xBF⟩, [])
  else (none, [0xFFFD])

/-- One byte through the decoder: the new state and the code points written. A byte that cannot
continue the open sequence ends it with U+FFFD and is read again as a first byte. -/
def utf8Step (st : Option Utf8Pending) (b : Nat) : Option Utf8Pending × List Nat :=
  match st with
  | none => utf8Lead b
  | some d =>
    if d.lower ≤ b ∧ b ≤ d.upper then
      if d.needed = 1 then (none, [d.cp * 0x40 + (b - 0x80)])
      else (some ⟨d.cp * 0x40 + (b - 0x80), d.needed - 1, 0x80, 0xBF⟩, [])
    else ((utf8Lead b).1, 0xFFFD :: (utf8Lead b).2)

/-- The code points decoded from a byte sequence; a sequence cut short by the end of the input is
replaced by U+FFFD. -/
def utf8DecodeCodePoints : List Nat → Option Utf8Pending → List Nat
  | [], none => []
  | [], some _ => [0xFFFD]
  | b :: rest, st => (utf8Step st b).2 ++ utf8DecodeCodePoints rest (utf8Step st b).1

/-- The UTF-16 code units of one code point. -/
def codePointUnits (c : Nat) : JSString :=
  if c < 0x10000 then [c]
  else [0xD800 + (c - 0x10000) / 0x400, 0xDC00 + (c - 0x10000) % 0x400]

/-- `buf.toString('utf-8')`. -/
def utf8Decode (bs : Bytes) : JSString :=
  (utf8DecodeCodePoints bs none).flatMap codePointUnits

/-- A well-formed JavaScript string: code units below `2^16`, no lone surrogate. -/
def WellFormed (s : JSString) : Prop := ValidUnits s ∧ isWellFormed s = true

instance WellFormed.decidable (s : JSString) : Decidable (WellFormed s) := by
  unfold WellFormed; infer_instance

/-- A Unicode scalar value: a code point that is not a surrogate. -/
def IsScalar (c : Nat) : Prop := c < 0x110000 ∧ isSurrogate c = false

/-! ## `wecomCrypto.js` -/

/-- The functions of the Node library that `wecomCrypto.js` calls, as parameters. `none` stands
for a thrown error (a key of the wrong length, data that is not a whole number of blocks). -/
structure CryptoLib where
  /-- The call `Buffer.from(s, 'base64')`. -/
  base64Decode : JSString → Bytes
  /-- The call `buf.toString('base64')`. -/
  base64Encode : Bytes → JSString
  /-- The cipher `createCipheriv('aes-256-cbc', key, iv)` without automatic padding, applied to
  the data: `cipher key iv data`. -/
  cipher : Bytes → Bytes → Bytes → Option Bytes
  /-- The decipher `createDecipheriv('aes-256-cbc', key, iv)` without automatic padding. -/
  decipher : Bytes → Bytes → Bytes → Option Bytes

/-- Base64 decoding undoes base64 encoding, and the decipher undoes the cipher under the same key
and IV. -/
structure CryptoLib.InversePairs (L : CryptoLib) : Prop where
  base64 : ∀ b, L.base64Decode (L.base64Encode b) = b
  aes : ∀ key iv data c, L.cipher key iv data = some c → L.decipher key iv c = some data

/-- A library whose cipher and whose base64 coding are the identity: the smallest instance of
`InversePairs`, used to evaluate the functions at concrete inputs. -/
def CryptoLib.plain : CryptoLib where
  base64Decode := fun s => s
  base64Encode := fun b => b
  cipher := fun _ _ data => some data
  decipher := fun _ _ data => some data

/-- `pkcs7Pad(buffer)` (lines 12-17). -/
def pkcs7Pad (buffer : Bytes) : Bytes :=
  let blockSize := 32
  let pad := blockSize - buffer.length % blockSize
  buffer ++ List.replicate pad pad

/-- `buffer.slice(0, end)` for an integer `end`: a negative `end` counts from the end of the
buffer. -/
def sliceTo (buffer : Bytes) (e : Int) : Bytes :=
  if e < 0 then buffer.take ((buffer.length : Int) + e).toNat else buffer.take e.toNat

/-- `pkcs7Unpad(buffer)` (lines 19-23). For an empty buffer `pad` is `undefined`, both comparisons
are false and `slice(0, NaN)` is empty. -/
def pkcs7Unpad (buffer : Bytes) : Bytes :=
  match buffer.getLast? with
  | none => []
  | some pad =>
    if pad < 1 ∨ pad > 32 then buffer
    else sliceTo buffer ((buffer.length : Int) - (pad : Int))

/-- `buf.readUInt32BE(0)`: throws on fewer than four bytes. -/
def readUInt32BE : Bytes → Option Nat
  | b0 :: b1 :: b2 :: b3 :: _ => some (b0 * 2 ^ 24 + b1 * 2 ^ 16 + b2 * 2 ^ 8 + b3)
  | _ => none

/-- `Buffer.alloc(4)` after `writeUInt32BE(v, 0)`: throws when `v` is not below `2^32`. -/
def writeUInt32BE (v : Nat) : Option Bytes :=
  if v < 2 ^ 32 then some [v / 2 ^ 24 % 256, v / 2 ^ 16 % 256, v / 2 ^ 8 % 256, v % 256]
  else none

/-- What `aesDecrypt` returns. -/
structure Decrypted where
  random : Bytes
  msgLen : Nat
  msg : JSString
  receiveId : JSString
deriving DecidableEq, Repr

/-- `aesDecrypt(encrypt, aesKey, corpIdOrSuiteId)` (lines 25-41). The comparison of `receiveId`
with `corpIdOrSuiteId` on line 37 guards an empty block. -/
def aesDecrypt (L : CryptoLib) (encrypt aesKey corpIdOrSuiteId : JSString) : Option Decrypted :=
  let key := L.base64Decode (aesKey ++ [0x3D])
  let iv := slice key 0 16
  match L.decipher key iv (L.base64Decode encrypt) with
  | none => none
  | some deciphered =>
    let decrypted := pkcs7Unpad deciphered
    let random := slice decrypted 0 16
    match readUInt32BE (slice decrypted 16 20) with
    | none => none
    | some msgLen =>
      let msg := utf8Decode (slice decrypted 20 (20 + msgLen))
      let receiveId := utf8Decode (decrypted.drop (20 + msgLen))
      if corpIdOrSuiteId ≠ [] ∧ receiveId ≠ corpIdOrSuiteId then
        some ⟨random, msgLen, msg, receiveId⟩
      else some ⟨random, msgLen, msg, receiveId⟩

/-- `aesEncrypt(msg, aesKey, corpId)` (lines 43-57); `random` is the value of
`crypto.randomBytes(16)`. -/
def aesEncrypt (L : CryptoLib) (random : Bytes) (msg aesKey corpId : JSString) :
    Option JSString :=
  let key := L.base64Decode (aesKey ++ [0x3D])
  let iv := slice key 0 16
  let msgBuf := utf8Encode msg
  let corpBuf := utf8Encode corpId
  match writeUInt32BE msgBuf.length with
  | none => none
  | some lenBuf =>
    let buf := random ++ lenBuf ++ msgBuf ++ corpBuf
    let padded := pkcs7Pad buf
    match L.cipher key iv padded with
    | none => none
    | some encrypted => some (L.base64Encode encrypted)

/-! ## Signatures (wecomCrypto.js, lines 6-10 and 59-62; routes/wecom.js, lines 45-49) -/

/-- The order of `Array.prototype.sort()` without a comparator on strings: `a ≤ b` by code
units, lexicographically. -/
def strLe : JSString → JSString → Bool
  | [], _ => true
  | _ :: _, [] => false
  | a :: as, b :: bs => if a < b then true else if b < a then false else strLe as bs

/-- `arr.sort()` on an array of strings. -/
def sortStrings (arr : List JSString) : List JSString :=
  arr.insertionSort fun a b => strLe a b = true

/-- The bytes that `sha1(strs)` feeds to the hash: `update(s)` writes the UTF-8 bytes of each
string, one after the other. -/
def hashInput (strs : List JSString) : Bytes := strs.flatMap utf8Encode

/-- `sha1(strs)` (lines 6-10); `sha1Hex` is the SHA-1 digest in hexadecimal, as a function of the
bytes fed to the hash. -/
def sha1 (sha1Hex : Bytes → JSString) (strs : List JSString) : JSString :=
  sha1Hex (hashInput strs)

/-- The bytes hashed by `genSignature`: the four fields, sorted, one after the other. -/
def signedBytes (token timestamp nonce encrypt : JSString) : Bytes :=
  hashInput (sortStrings [token, timestamp, nonce, encrypt])

/-- `genSignature(token, timestamp, nonce, encrypt)` (lines 59-62). -/
def genSignature (sha1Hex : Bytes → JSString) (token timestamp nonce encrypt : JSString) :
    JSString :=
  sha1 sha1Hex (sortStrings [token, timestamp, nonce, encrypt])

/-- The check of the callback routes: the request passes when `sign !== msg_signature` is
false. -/
def verifySignature (sha1Hex : Bytes → JSString) (token timestamp nonce body : JSString)
    (msg_signature : JSString) : Bool :=
  decide (genSignature sha1Hex token timestamp nonce body = msg_signature)

/-- One character of a string changed: a code unit replaced by a different one, inserted, or
deleted. -/
inductive SingleEdit : JSString → JSString → Prop
  | subst (pre post : JSString) (c d : Nat) (h : c ≠ d) :
      SingleEdit (pre ++ c :: post) (pre ++ d :: post)
  | insert (pre post : JSString) (c : Nat) : SingleEdit (pre ++ post) (pre ++ c :: post)
  | delete (pre post : JSString) (c : Nat) : SingleEdit (pre ++ c :: post) (pre ++ post)

/-- A string of characters of the Basic Multilingual Plane: every code unit is a character of its
own (no surrogate). Strings of bytes and of ASCII characters are of this kind. -/
def IsBmpString (s : JSString) : Prop := ∀ u ∈ s, u < 0x10000 ∧ isSurrogate u = false

instance IsBmpString.decidable (s : JSString) : Decidable (IsBmpString s) := by
  unfold IsBmpString; infer_instance

/-- The fields `t' ts' n' b'` are signed differently from `t ts n b`: the bytes hashed differ, and
so do the signatures under every collision-free hash. -/
def SignatureFlips (t ts n b t' ts' n' b' : JSString) : Prop :=
  signedBytes t' ts' n' b' ≠ signedBytes t ts n b ∧
    ∀ sha1Hex : Bytes → JSString, Function.Injective sha1Hex →
      genSignature sha1Hex t' ts' n' b' ≠ genSignature sha1Hex t ts n b

/-! ## Regular expressions

The patterns of `utils/mermaid.js` and of `looksLikeMermaid` are written in the part of the
regular expression syntax below and run by a backtracking matcher that lists the ways a pattern
matches at a position in the order in which the ECMAScript matcher tries them. -/

/-- A regular expression. -/
inductive Re where
  /-- The empty pattern. -/
  | empty : Re
  /-- One code unit that satisfies `p` (a character, a class). -/
  | unit (p : Nat → Bool) : Re
  /-- The pattern `a` followed by `b`. -/
  | seq (a b : Re) : Re
  /-- The alternation of `a` and `b`: `a` is tried first. -/
  | alt (a b : Re) : Re
  /-- The repetition `a*` when `greedy`, `a*?` otherwise. -/
  | star (greedy : Bool) (a : Re) : Re
  /-- The assertion `^` without the `m` flag: the start of the input. -/
  | bos : Re

/-- A position in the input: the index and the text from there on. -/
abbrev Pos := Nat × List Nat

/-- The repetitions of a pattern whose matches from a position are `step`: rounds that consume
nothing are not repeated; the greedy form tries more rounds first, the lazy form fewer. -/
def starIter (greedy : Bool) (step : Pos → List Pos) : Nat → Pos → List Pos
  | 0, st => [st]
  | fuel + 1, st =>
    let more := ((step st).filter fun st2 => decide (st2.2.length < st.2.length)).flatMap
      (starIter greedy step fuel)
    if greedy then more ++ [st] else st :: more

/-- The positions where a match of the pattern that starts at `st` can end, in the order of the
matcher. -/
def Re.run : Re → Pos → List Pos
  | .empty, st => [st]
  | .unit p, st =>
    match st.2 with
    | c :: rest => if p c then [(st.1 + 1, rest)] else []
    | [] => []
  | .seq a b, st => (a.run st).flatMap b.run
  | .alt a b, st => a.run st ++ b.run st
  | .star g a, st => starIter g a.run st.2.length st
  | .bos, st => if st.1 = 0 then [st] else []

/-- The literal text `s`. -/
def Re.lit : List Nat → Re
  | [] => .empty
  | c :: s => .seq (.unit fun u => u == c) (Re.lit s)

/-- The ASCII letter `c` in the other case, any other code unit unchanged. -/
def swapCase (c : Nat) : Nat :=
  if 0x41 ≤ c ∧ c ≤ 0x5A then c + 0x20 else if 0x61 ≤ c ∧ c ≤ 0x7A then c - 0x20 else c

/-- The literal ASCII text `s` under the `i` flag. -/
def Re.litI : List Nat → Re
  | [] => .empty
  | c :: s => .seq (.unit fun u => u == c || u == swapCase c) (Re.litI s)

/-- The class `\s`, repeated greedily: `\s*`. -/
def Re.spaces : Re := .star true (.unit isWhitespace)

/-- The call `re.test(s)` for a pattern without the `g` flag: a match starts at some index. -/
def Re.test (r : Re) : Nat → List Nat → Bool
  | i, [] => !(r.run (i, [])).isEmpty
  | i, c :: rest => !(r.run (i, c :: rest)).isEmpty || Re.test r (i + 1) rest

/-- The first way to match `([\s\S]*?)` and then `b` from the position `(i, rest)`, the text
captured so far being `cap`: the captured text and the position after `b`. -/
def lazyCapture (b : Re) : List Nat → Nat → List Nat → Option (List Nat × Pos)
  | [], i, cap =>
    match b.run (i, []) with
    | st :: _ => some (cap, st)
    | [] => none
  | c :: rest, i, cap =>
    match b.run (i, c :: rest) with
    | st :: _ => some (cap, st)
    | [] => lazyCapture b rest (i + 1) (cap ++ [c])

/-- The first element of a list on which `f` gives a result. -/
def firstSome {α β : Type} (f : α → Option β) : List α → Option β
  | [] => none
  | x :: xs =>
    match f x with
    | some y => some y
    | none => firstSome f xs

/-- The match of `a([\s\S]*?)b` that starts at the position `st`, when there is one: the text of
the group and the position after the match. -/
def matchGroupAt (a b : Re) (st : Pos) : Option (List Nat × Pos) :=
  firstSome (fun st1 => lazyCapture b st1.2 st1.1 []) (a.run st)

/-- The loop `while ((m = re.exec(text)) !== null)` for the pattern `a([\s\S]*?)b` with the `g`
flag: the texts `m[1]` of the successive matches. A match is looked for at the position `st`, then
one index further; after a match the search goes on where the match ended. -/
def execAll (a b : Re) : Nat → Pos → List (List Nat)
  | 0, _ => []
  | fuel + 1, st =>
    match matchGroupAt a b st with
    | some (cap, st2) => cap :: execAll a b fuel st2
    | none =>
      match st.2 with
      | [] => []
      | _ :: rest => execAll a b fuel (st.1 + 1, rest)

/-- The call `s.replace(/pat/g, rep)` for a literal, non-empty `pat`. -/
def replaceAll (pat rep : List Nat) : Nat → List Nat → List Nat
  | 0, s => s
  | fuel + 1, s =>
    match s with
    | [] => []
    | c :: rest =>
      if pat.isPrefixOf (c :: rest) then rep ++ replaceAll pat rep fuel ((c :: rest).drop pat.length)
      else c :: replaceAll pat rep fuel rest

/-! ## `utils/mermaid.js` -/

/-- The pattern ```` ```\s*mermaid\s*\n ```` before the group of `fenceRe` (flags `gi`). -/
def fenceOpen : Re :=
  .seq (Re.lit [0x60, 0x60, 0x60]) (.seq Re.spaces (.seq (Re.litI (js "mermaid"))
    (.seq Re.spaces (.unit fun u => u == 0x0A))))

/-- The pattern ```` ``` ```` after the group of `fenceRe`. -/
def fenceClose : Re := Re.lit [0x60, 0x60, 0x60]

/-- `extractMermaidBlocksFromText(text)` (lines 3-14). -/
def extractMermaidBlocksFromText (text : JSString) : List JSString :=
  ((execAll fenceOpen fenceClose (text.length + 1) (0, text)).map trim).filter fun code =>
    !code.isEmpty

/-- The pattern `<\s*mermaid\s*>` before the group of `tagRe` (flags `gi`). -/
def tagOpen : Re :=
  .seq (Re.lit [0x3C]) (.seq Re.spaces (.seq (Re.litI (js "mermaid"))
    (.seq Re.spaces (Re.lit [0x3E]))))

/-- The pattern `<\s*\/\s*mermaid\s*>` after the group of `tagRe`. -/
def tagClose : Re :=
  .seq (Re.lit [0x3C]) (.seq Re.spaces (.seq (Re.lit [0x2F]) (.seq Re.spaces
    (.seq (Re.litI (js "mermaid")) (.seq Re.spaces (Re.lit [0x3E]))))))

/-- The pattern `<\s*code[^>]*class\s*=\s*"[^"]*mermaid[^"]*"[^>]*>` before the group of `codeRe`
(flags `gi`). -/
def codeOpen : Re :=
  .seq (Re.lit [0x3C]) (.seq Re.spaces (.seq (Re.litI (js "code"))
    (.seq (.star true (.unit fun u => u != 0x3E)) (.seq (Re.litI (js "class"))
    (.seq Re.spaces (.seq (Re.lit [0x3D]) (.seq Re.spaces (.seq (Re.lit [0x22])
    (.seq (.star true (.unit fun u => u != 0x22)) (.seq (Re.litI (js "mermaid"))
    (.seq (.star true (.unit fun u => u != 0x22)) (.seq (Re.lit [0x22])
    (.seq (.star true (.unit fun u => u != 0x3E)) (Re.lit [0x3E]))))))))))))))

/-- The pattern `<\s*\/\s*code\s*>` after the group of `codeRe`. -/
def codeClose : Re :=
  .seq (Re.lit [0x3C]) (.seq Re.spaces (.seq (Re.lit [0x2F]) (.seq Re.spaces
    (.seq (Re.litI (js "code")) (.seq Re.spaces (Re.lit [0x3E]))))))

/-- `decodeHtmlEntities(str)` (lines 35-42): the five replacements, in the order of the source. -/
def decodeHtmlEntities (str : JSString) : JSString :=
  let s1 := replaceAll (js "&lt;") [0x3C] (str.length + 1) str
  let s2 := replaceAll (js "&gt;") [0x3E] (s1.length + 1) s1
  let s3 := replaceAll (js "&amp;") [0x26] (s2.length + 1) s2
  let s4 := replaceAll (js "&#39;") [0x27] (s3.length + 1) s3
  replaceAll (js "&quot;") [0x22] (s4.length + 1) s4

/-- `extractMermaidBlocksFromHtml(html)` (lines 16-33). -/
def extractMermaidBlocksFromHtml (html : JSString) : List JSString :=
  let fromTag := (((execAll tagOpen tagClose (html.length + 1) (0, html)).map trim).filter
    fun code => !code.isEmpty).map decodeHtmlEntities
  let fromCode := (((execAll codeOpen codeClose (html.length + 1) (0, html)).map
    fun m1 => trim (removeTags m1 none)).filter fun code => !code.isEmpty).map decodeHtmlEntities
  fromTag ++ fromCode

/-- `Array.from(new Set(arr))` after the elements of `seen`: each string once, in the order of
its first occurrence. -/
def arrayFromSet : List JSString → List JSString → List JSString
  | seen, [] => seen
  | seen, x :: xs => if x ∈ seen then arrayFromSet seen xs else arrayFromSet (seen ++ [x]) xs

/-- `extractMermaidBlocks(text, rawHtml)` (lines 44-50). -/
def extractMermaidBlocks (text rawHtml : JSString) : List JSString :=
  arrayFromSet [] (extractMermaidBlocksFromText text ++ extractMermaidBlocksFromHtml rawHtml)

/-! ## `looksLikeMermaid` and `onChunk` (routes/wecom.js, lines 145-171) -/

/-- The pattern ```` /^```\s*mermaid/i ````. -/
def fenceStart : Re :=
  .seq .bos (.seq (Re.lit [0x60, 0x60, 0x60]) (.seq Re.spaces (Re.litI (js "mermaid"))))

/-- The twelve keywords. -/
def mermaidKeywords : List JSString :=
  [js "graph", js "flowchart", js "sequenceDiagram", js "classDiagram", js "stateDiagram",
    js "erDiagram", js "gantt", js "journey", js "mindmap", js "quadrantChart", js "pie",
    js "timeline"]

/-- The pattern that `new RegExp(..., 'i')` receives for the keyword `k`. The source of the
pattern is a template literal, in which `\n` is a line feed, `\s` is the letter `s` and `\b` is the
backspace U+0008: the pattern is `(^|LF)s*k` followed by a backspace, not `(^|\n)\s*k\b`. -/
def keywordRe (k : JSString) : Re :=
  .seq (.alt .bos (.unit fun u => u == 0x0A))
    (.seq (.star true (.unit fun u => u == 0x73 || u == swapCase 0x73))
      (.seq (Re.litI k) (.unit fun u => u == 0x08)))

/-- The pattern `/(-->|---|==>|-\>|\.-\->|\.-\.|:::)/`. -/
def arrowRe : Re :=
  .alt (Re.lit (js "-->")) (.alt (Re.lit (js "---")) (.alt (Re.lit (js "==>"))
    (.alt (Re.lit (js "->")) (.alt (Re.lit (js ".-->")) (.alt (Re.lit (js ".-."))
    (Re.lit (js ":::")))))))

/-- `looksLikeMermaid(t)` for a string `t` (lines 145-157). -/
def looksLikeMermaid (t : JSString) : Bool :=
  if t = [] then false
  else
    let s := trim t
    if s = [] then false
    else if fenceStart.test 0 s then true
    else if mermaidKeywords.any fun k => (keywordRe k).test 0 s then true
    else if arrowRe.test 0 s then true
    else false

/-- `onChunk(chunkContent)` on the queue (lines 159-171): a chunk that looks like a diagram is
not queued. -/
def onChunk (messageQueue : List JSString) (chunkContent : JSString) : List JSString :=
  if looksLikeMermaid chunkContent then messageQueue else messageQueue ++ [chunkContent]

/-! ## Properties of sanitized text -/

/-- No `>` comes after a `<`. -/
def NoToken (l : JSString) : Prop := l.Pairwise fun a b => ¬ (a = 0x3C ∧ b = 0x3E)

/-- No tab, and no space next to a space. -/
def Collapsed (l : JSString) : Prop :=
  0x09 ∉ l ∧ l.Chain' fun a b => ¬ (a = 0x20 ∧ b = 0x20)

/-! ## The delivery queue (routes/wecom.js, lines 90-141)

The send capability `api.sendTextToUser` is a parameter: `send i a` tells whether the call made for
the `i`-th entry taken from the queue, after `a` failed attempts for that entry, succeeds (the
result has `errcode === 0`; a thrown error and any other result are a failure). The waits between
calls are left out. -/

/-- `maxRetries` (line 94). -/
def maxRetries : Nat := 3

/-- The queue of a session together with what has happened on the wire. -/
structure Delivery where
  messageQueue : List JSString
  isProcessingQueue : Bool
  /-- The text of every call to the send capability, in order. -/
  sent : List JSString
  /-- The texts whose call succeeded, in order. -/
  delivered : List JSString
deriving DecidableEq, Repr

/-- `sendWithRetry(text)` (lines 97-122) from the value `attempt` on, for the entry whose calls
behave as `send`: whether it returns `true`, and the number of calls made. The first argument
bounds the rounds that remain, `maxRetries - attempt`. -/
def sendWithRetry (send : Nat → Bool) : Nat → Nat → Bool × Nat
  | 0, _ => (false, 0)
  | remaining + 1, attempt =>
    if attempt < maxRetries then
      if send attempt then (true, 1)
      else
        let r := sendWithRetry send remaining (attempt + 1)
        (r.1, r.2 + 1)
    else (false, 0)

/-- The `while (messageQueue.length > 0)` loop of `processMessageQueue` (lines 130-139): `served`
entries have been taken from the queue before. -/
def drainLoop (send : Nat → Nat → Bool) : List JSString → Nat → Delivery → Delivery
  | [], _, st => { st with messageQueue := [] }
  | message :: rest, served, st =>
    let r := sendWithRetry (send served) maxRetries 0
    drainLoop send rest (served + 1)
      { st with
        messageQueue := rest
        sent := st.sent ++ List.replicate r.2 message
        delivered := if r.1 then st.delivered ++ [message] else st.delivered }

/-- `processMessageQueue()` (lines 125-141). -/
def processMessageQueue (send : Nat → Nat → Bool) (st : Delivery) : Delivery :=
  if st.isProcessingQueue ∨ st.messageQueue = [] then st
  else
    { drainLoop send st.messageQueue 0 { st with isProcessingQueue := true } with
      isProcessingQueue := false }

/-- The calls for an entry fail `k` times and then succeed (`some k`), or fail for ever
(`none`). -/
def FailsBeforeSuccess (send : Nat → Bool) : Option Nat → Prop
  | some k => (∀ a, a < k → send a = false) ∧ send k = true
  | none => ∀ a, send a = false

/-- The number of calls the claim names for an entry that fails `k` times: `min (k + 1) 3`. -/
def expectedCalls : Option Nat → Nat
  | some k => min (k + 1) 3
  | none => 3

/-- An entry is delivered when it fails fewer than three times. -/
def expectedDelivered : Option Nat → Bool
  | some k => decide (k < 3)
  | none => false

/-! ## The failure path of a session (llm.js, lines 92-234; routes/wecom.js, lines 217-245)

The upstream service is a parameter: `post attempt` is `none` when the request of that attempt
fails (`axios.post` rejects), and otherwise tells how the stream of the response ends. What the
session does on the wire is the list of the texts passed to `api.sendTextToUser` by the error
path. -/

/-- How the stream of a response ends. -/
inductive StreamEnd where
  /-- The `'end'` event: the promise resolves. -/
  | ended : StreamEnd
  /-- The `'error'` event (lines 211-216). -/
  | errored : StreamEnd
  /-- No chunk within `LLM_TIMEOUT_MS`: the timer fires (lines 120-125, 130-135), and nothing
  arrives afterwards. -/
  | timedOut : StreamEnd
deriving DecidableEq, Repr

/-- The text of the notice sent by the `onError` callback of the route (line 224). -/
def errorNotice : JSString := js "抱歉，处理您的消息时出现了问题，请稍后重试。"

/-- The text sent by the `catch` of the background task (line 240). -/
def echoNotice (content : JSString) : JSString := js "收到你的消息：" ++ content

/-- The `onError` callback of the route (lines 217-230): one call of `sendTextToUser`. -/
def onError : List JSString := [errorNotice]

/-- `chatStream` on its callbacks' sends (lines 99-233), from the attempt `attempt` on, with
`remaining` attempts left (`maxRetries = 2`): the texts sent by `onError`, and whether the
promise of `chatStream` is rejected. A stream that errors or times out calls `onError` and rejects
the promise returned from inside the `try`, which the `catch` of the retry loop does not see. -/
def chatStreamFrom (post : Nat → Option StreamEnd) : Nat → Nat → List JSString × Bool
  | 0, _ => (onError, true)
  | remaining + 1, attempt =>
    match post attempt with
    | some .ended => ([], false)
    | some .errored => (onError, true)
    | some .timedOut => (onError, true)
    | none => chatStreamFrom post remaining (attempt + 1)

/-- `chatStream(...)` with the callbacks of the route. -/
def chatStream (post : Nat → Option StreamEnd) : List JSString × Bool :=
  chatStreamFrom post 2 1

/-- The background task of the route (lines 85-245) on a message `content`: the texts passed to
`sendTextToUser` by the error path, in order. The `catch` around `await chatStream(...)` sends the
echo when the promise is rejected. -/
def backgroundTask (post : Nat → Option StreamEnd) (content : JSString) : List JSString :=
  if (chatStream post).2 then (chatStream post).1 ++ [echoNotice content] else (chatStream post).1

/-- The generation fails: the request fails on both attempts, or the stream of a response errors
or times out. -/
def UpstreamFails (post : Nat → Option StreamEnd) : Prop :=
  (chatStream post).2 = true

/-! ## The `plainBuffer` overflow loop and the `'end'` handler of `chatStream` -/

/-- One round of the `while` loop (lines 160-166): the `head` handed to `onChunk` and the `tail`
kept in `plainBuffer`. -/
def overflowStep (plainBuffer : JSString) : JSString × JSString :=
  let buf := utf8Encode plainBuffer
  (utf8Decode (buf.take MAX_SEGMENT_BYTES.toNat), utf8Decode (buf.drop MAX_SEGMENT_BYTES.toNat))

/-- The loop `while (Buffer.byteLength(plainBuffer, 'utf8') > MAX_SEGMENT_BYTES)` (lines 160-166):
the heads handed to `onChunk` and the final `plainBuffer`. -/
def overflowLoop : Nat → JSString → List JSString → List JSString × JSString
  | 0, plainBuffer, emitted => (emitted, plainBuffer)
  | fuel + 1, plainBuffer, emitted =>
    if (byteLength plainBuffer : Int) > MAX_SEGMENT_BYTES then
      overflowLoop fuel (overflowStep plainBuffer).2 (emitted ++ [(overflowStep plainBuffer).1])
    else (emitted, plainBuffer)

/-- The whole `'data'` handler (lines 127-167) on one chunk: the new state and the segments handed
to `onChunk`, in order. -/
def dataHandler (s : StreamState) (chunkStr : JSString) : StreamState × List JSString :=
  let r := dataStep s chunkStr
  let o := overflowLoop (byteLength r.1.plainBuffer) r.1.plainBuffer []
  ({ r.1 with plainBuffer := o.2 }, moduleSegments r.2 ++ o.1)

/-- The `'data'` handler run over the chunks of a stream: the final state and all the segments
handed to `onChunk`. -/
def runData : StreamState → List JSString → StreamState × List JSString
  | s, [] => (s, [])
  | s, chunk :: rest =>
    ((runData (dataHandler s chunk).1 rest).1,
      (dataHandler s chunk).2 ++ (runData (dataHandler s chunk).1 rest).2)

/-- One round of the loop of `extractIncompleteModules` (lines 278-293), with the exits of
`ScanStep`: a token whose closing tag is in the buffer is passed over, a token without closing tag
is pushed with all the text after it and the buffer is cut before the token. -/
def incompleteStep (buffer : JSString) (cursor : Nat) : ScanStep :=
  match indexOf buffer [0x3C] cursor with
  | none => .done
  | some openIdx =>
    match indexOf buffer [0x3E] (openIdx + 1) with
    | none => .done
    | some gtIdx =>
      let tagHead := trim (slice buffer (openIdx + 1) gtIdx)
      if tagHead = [] ∨ tagHead.head? = some 0x2F then .skip (gtIdx + 1)
      else
        let tagName := tagHead.takeWhile fun u => !isWhitespace u
        let closeTag := [0x3C, 0x2F] ++ tagName ++ [0x3E]
        match indexOf buffer closeTag (gtIdx + 1) with
        | some _ => .skip (gtIdx + 1)
        | none => .extract ⟨tagName, buffer.drop (gtIdx + 1)⟩ (slice buffer 0 openIdx)

/-- The loop of `extractIncompleteModules`, with the modules pushed so far. -/
def incompleteLoop : Nat → JSString → Nat → List Module → List Module
  | 0, _, _, modules => modules
  | fuel + 1, buffer, cursor, modules =>
    match incompleteStep buffer cursor with
    | .done => modules
    | .skip c => incompleteLoop fuel buffer c modules
    | .extract m b => incompleteLoop fuel b 0 (modules ++ [m])

/-- `extractIncompleteModules(buffer)` (lines 275-295). -/
def extractIncompleteModules (buffer : JSString) : List Module :=
  incompleteLoop (extractFuel buffer 0) buffer 0 []

/-- The segments that the `'end'` handler hands to `onChunk` (lines 173-193): those of the
modules left open in `chunkBuffer`, when the guard on `chunkBuffer` holds, then those of
`plainBuffer`. -/
def endSegments (s : StreamState) : List JSString :=
  (if trim s.chunkBuffer ≠ [] then moduleSegments (extractIncompleteModules s.chunkBuffer)
    else []) ++
  (if trim s.plainBuffer ≠ [] then splitByBytes s.plainBuffer MAX_SEGMENT_BYTES else [])

/-- A pattern whose every match consumes at least one code unit. -/
def Re.Progress (a : Re) : Prop :=
  ∀ st st2 : Pos, st2 ∈ a.run st → st2.2.length < st.2.length

/-- A UTF-8 continuation byte. -/
def IsCont (b : Nat) : Prop := 0x80 ≤ b ∧ b ≤ 0xBF

/-- The code point that the UTF-8 encoder writes for `c`: U+FFFD for a surrogate. -/
def replaceSurrogate (c : Nat) : Nat := if isSurrogate c then 0xFFFD else c

/-! # Theorems -/

/-! ## `splitByBytes` -/

theorem take_append_slice (text : JSString) (start i : Nat) (h : start ≤ i) :
    text.take start ++ slice text start i = text.take i := by
  have h2 : i = start + (i - start) := by omega
  conv_rhs => rw [h2, List.take_add]
  rfl

theorem drop_succ_of_drop_eq_cons {text : JSString} {i ch : Nat} {rest : List Nat}
    (h : text.drop i = ch :: rest) : text.drop (i + 1) = rest := by
  have h2 : text.drop (i + 1) = (text.drop i).drop 1 := by
    rw [List.drop_drop]
  rw [h2, h]; rfl

/-- Loop invariant of `splitByBytes`: the parts pushed so far concatenate to `text[0, start)`. -/
theorem splitLoop_join (text : JSString) (maxBytes : Int) :
    ∀ (rest : List Nat) (i start acc : Nat) (parts : List JSString),
      text.drop i = rest → start ≤ i → parts.flatten = text.take start →
      (splitLoop text maxBytes rest i start acc parts).1.flatten =
        text.take (splitLoop text maxBytes rest i start acc parts).2 := by
  intro rest
  induction rest with
  | nil => intro i start acc parts _ _ hj; simpa [splitLoop] using hj
  | cons ch rest ih =>
    intro i start acc parts hd hs hj
    have hd2 := drop_succ_of_drop_eq_cons hd
    simp only [splitLoop]
    split
    · apply ih _ _ _ _ hd2 (Nat.le_succ i)
      rw [List.flatten_append, hj]
      simpa using take_append_slice text start i hs
    · exact ih _ _ _ _ hd2 (by omega) hj

/-- C2: for every string `text` and every integer `maxBytes`, the segments returned by
`splitByBytes(text, maxBytes)`, concatenated in order, give back `text` exactly, and the empty
string yields no segments. -/
theorem splitByBytes_join (text : JSString) (maxBytes : Int) :
    (splitByBytes text maxBytes).flatten = text ∧ splitByBytes [] maxBytes = [] := by
  refine ⟨?_, by simp [splitByBytes]⟩
  unfold splitByBytes
  split
  · next h => simp [h]
  · have hinv := splitLoop_join text maxBytes text 0 0 0 [] rfl (Nat.le_refl 0) (by simp)
    simp only
    split
    · rw [List.flatten_append, hinv]; simp
    · next hlt =>
      rw [hinv, List.take_of_length_le (by omega)]

theorem take_succ_of_drop_eq_cons : ∀ (i : Nat) (text : JSString) (ch : Nat) (rest : List Nat),
    text.drop i = ch :: rest → text.take (i + 1) = text.take i ++ [ch] := by
  intro i
  induction i with
  | zero => intro text ch rest h; cases text <;> simp_all
  | succ n ih =>
    intro text ch rest h
    cases text with
    | nil => simp at h
    | cons a t => simp only [List.drop_succ_cons] at h; simp [ih t ch rest h]

theorem slice_succ {text : JSString} {start i ch : Nat} {rest : List Nat}
    (h : text.drop i = ch :: rest) (hs : start ≤ i) :
    slice text start (i + 1) = slice text start i ++ [ch] := by
  have h1 := take_append_slice text start (i + 1) (by omega)
  rw [take_succ_of_drop_eq_cons i text ch rest h, ← take_append_slice text start i hs,
    List.append_assoc] at h1
  exact List.append_cancel_left h1

theorem slice_self (text : JSString) (i : Nat) : slice text i i = [] := by
  simp [slice]

theorem slice_of_drop_eq_nil {text : JSString} {start i : Nat} (h : text.drop i = [])
    (hs : start ≤ i) : slice text start i = text.drop start := by
  have hl : text.length ≤ i := by simpa using h
  unfold slice
  apply List.take_of_length_le
  simp; omega

theorem byteLength_singleton (u : Nat) : byteLength [u] = (utf8EncodeCodePoint u).length := by
  simp [byteLength, utf8Encode, codePoints]

theorem utf8EncodeCodePoint_length_pos (c : Nat) : 1 ≤ (utf8EncodeCodePoint c).length := by
  unfold utf8EncodeCodePoint; split_ifs <;> simp

theorem utf8EncodeCodePoint_length_le (c : Nat) : (utf8EncodeCodePoint c).length ≤ 4 := by
  unfold utf8EncodeCodePoint; split_ifs <;> simp

theorem utf8EncodeCodePoint_surrogate {c : Nat} (h : isSurrogate c = true) :
    utf8EncodeCodePoint c = [0xEF, 0xBF, 0xBD] := by
  have h2 : 0xD800 ≤ c := by simp [isSurrogate] at h; omega
  unfold utf8EncodeCodePoint
  rw [if_neg (by omega), if_neg (by omega), if_pos h]

theorem isSurrogate_of_high {u : Nat} (h : isHighSurrogate u = true) : isSurrogate u = true := by
  simp [isHighSurrogate, isSurrogate] at *; omega

theorem isSurrogate_of_low {u : Nat} (h : isLowSurrogate u = true) : isSurrogate u = true := by
  simp [isLowSurrogate, isSurrogate] at *; omega

theorem unitBytes_eq (s : JSString) :
    unitBytes s = (s.map fun u => (utf8EncodeCodePoint u).length).sum := by
  simp [unitBytes, byteLength_singleton]

/-- The UTF-8 length of a string is at most the sum that the loop accumulates unit by unit (a
surrogate pair is 4 bytes, counted as 3 + 3). -/
theorem byteLength_le_unitBytes : ∀ s : JSString, byteLength s ≤ unitBytes s := by
  intro s
  induction s using codePoints.induct with
  | case1 => simp [byteLength, utf8Encode, codePoints, unitBytes]
  | case2 u => simp [unitBytes]
  | case3 u v rest h ih =>
    simp only [Bool.and_eq_true] at h
    have hu := utf8EncodeCodePoint_surrogate (isSurrogate_of_high h.1)
    have hv := utf8EncodeCodePoint_surrogate (isSurrogate_of_low h.2)
    have h4 := utf8EncodeCodePoint_length_le (0x10000 + (u - 0xD800) * 0x400 + (v - 0xDC00))
    rw [unitBytes_eq] at ih ⊢
    simp only [byteLength, utf8Encode] at ih ⊢
    simp only [codePoints, h.1, h.2, Bool.and_self, if_true, List.flatMap_cons, List.length_append,
      List.map_cons, List.sum_cons, hu, hv]
    simp only [List.length_cons, List.length_nil]
    omega
  | case4 u v rest h ih =>
    rw [unitBytes_eq] at ih ⊢
    simp only [byteLength, utf8Encode] at ih ⊢
    simp only [codePoints, h, if_false, List.flatMap_cons, List.length_append, List.map_cons,
      List.sum_cons, Bool.false_eq_true] at ih ⊢
    omega

theorem unitBytes_append (s t : JSString) : unitBytes (s ++ t) = unitBytes s + unitBytes t := by
  simp [unitBytes]

theorem goodSegment_of_inv {maxBytes : Int} (h0 : 0 ≤ maxBytes) {seg : JSString}
    (h : (unitBytes seg : Int) ≤ maxBytes ∨ seg.length ≤ 1) : GoodSegment maxBytes seg := by
  by_cases hle : (byteLength seg : Int) ≤ maxBytes
  · exact Or.inl hle
  · rcases h with h | h
    · have := byteLength_le_unitBytes seg
      omega
    · match seg, h with
      | [], _ => simp [byteLength, utf8Encode, codePoints] at hle; omega
      | [u], _ => exact Or.inr ⟨u, rfl, by omega⟩

/-- Loop invariant of `splitByBytes` for the byte bound: `acc` is the counted size of the open
segment `text[start, i)`, which is within the budget or at most one code unit long. -/
theorem splitLoop_good (text : JSString) (maxBytes : Int) (h0 : 0 ≤ maxBytes) :
    ∀ (rest : List Nat) (i start acc : Nat) (parts : List JSString),
      text.drop i = rest → start ≤ i → acc = unitBytes (slice text start i) →
      ((acc : Int) ≤ maxBytes ∨ (slice text start i).length ≤ 1) →
      (∀ seg ∈ parts, GoodSegment maxBytes seg) →
      (∀ seg ∈ (splitLoop text maxBytes rest i start acc parts).1, GoodSegment maxBytes seg) ∧
        GoodSegment maxBytes (text.drop (splitLoop text maxBytes rest i start acc parts).2) := by
  intro rest
  induction rest with
  | nil =>
    intro i start acc parts hd hs hacc hinv hparts
    simp only [splitLoop]
    refine ⟨hparts, ?_⟩
    rw [← slice_of_drop_eq_nil hd hs]
    exact goodSegment_of_inv h0 (by rw [← hacc]; exact hinv)
  | cons ch rest ih =>
    intro i start acc parts hd hs hacc hinv hparts
    have hd2 := drop_succ_of_drop_eq_cons hd
    have hsl := slice_succ hd hs
    have hsl2 : slice text i (i + 1) = [ch] := by
      have := slice_succ hd (Nat.le_refl i)
      rwa [slice_self, List.nil_append] at this
    simp only [splitLoop]
    split
    · apply ih _ _ _ _ hd2 (Nat.le_succ i)
      · rw [hsl2]; simp [unitBytes]
      · right; rw [hsl2]; simp
      · intro seg hseg
        rcases List.mem_append.1 hseg with h | h
        · exact hparts seg h
        · simp only [List.mem_singleton] at h
          subst h
          exact goodSegment_of_inv h0 (by rw [← hacc]; exact hinv)
    · next hgt =>
      apply ih _ _ _ _ hd2 (by omega)
      · rw [hsl, unitBytes_append, ← hacc]; simp [unitBytes]
      · left; exact not_lt.1 hgt
      · exact hparts

/-- C4: for every string `text` and every `maxBytes ≥ 0`, each segment returned by
`splitByBytes(text, maxBytes)` has UTF-8 byte length at most `maxBytes`, unless the segment is a
single code point (one code unit) that alone is longer than `maxBytes` bytes; such a code unit has
a segment of its own. -/
theorem splitByBytes_byte_bound (text : JSString) (maxBytes : Int) (h0 : 0 ≤ maxBytes) :
    ∀ seg ∈ splitByBytes text maxBytes,
      (byteLength seg : Int) ≤ maxBytes ∨
        ∃ u, seg = [u] ∧ codePoints seg = [u] ∧ maxBytes < (byteLength seg : Int) := by
  have key : ∀ seg ∈ splitByBytes text maxBytes, GoodSegment maxBytes seg := by
    unfold splitByBytes
    split
    · simp
    · have hinv := splitLoop_good text maxBytes h0 text 0 0 0 [] rfl (Nat.le_refl 0)
        (by simp [slice_self, unitBytes]) (Or.inl (by simpa using h0)) (by simp)
      simp only
      split
      · intro seg hseg
        rcases List.mem_append.1 hseg with h | h
        · exact hinv.1 seg h
        · simp only [List.mem_singleton] at h
          subst h; exact hinv.2
      · exact hinv.1
  intro seg hseg
  rcases key seg hseg with h | ⟨u, hu, hlt⟩
  · exact Or.inl h
  · subst hu
    exact Or.inr ⟨u, rfl, rfl, hlt⟩

theorem splitByBytes_byte_bound_witness :
    (0 : Int) ≤ 2 ∧
      ∀ seg ∈ splitByBytes (js "中a中") 2,
        (byteLength seg : Int) ≤ 2 ∨
          ∃ u, seg = [u] ∧ codePoints seg = [u] ∧ (2 : Int) < (byteLength seg : Int) :=
  ⟨by decide, splitByBytes_byte_bound (js "中a中") 2 (by decide)⟩

/-- C3 (failing input): on the well-formed text `"a😀"` with `maxBytes = 4` the loop counts the two
halves of the surrogate pair as 3 bytes each and closes the first segment between them: both
segments hold a lone surrogate. -/
theorem splitByBytes_splits_surrogate_pair :
    isWellFormed (js "a😀") = true ∧
      splitByBytes (js "a😀") 4 = [[0x61, 0xD83D], [0xDE00]] ∧
      isWellFormed [0x61, 0xD83D] = false ∧ isWellFormed [0xDE00] = false ∧
      codePoints (js "a😀") = [0x61, 0x1F600] := by
  decide
theorem indexOfAux_cons_hit {pat : JSString} {c : Nat} {rest : List Nat} (i : Nat)
    (h : pat.isPrefixOf (c :: rest) = true) : indexOfAux pat (c :: rest) i = some i := by
  simp [indexOfAux, h]

theorem indexOfAux_cons_miss {pat : JSString} {c : Nat} {rest : List Nat} (i : Nat)
    (h : pat.isPrefixOf (c :: rest) = false) :
    indexOfAux pat (c :: rest) i = indexOfAux pat rest (i + 1) := by
  simp [indexOfAux, h]

theorem indexOfAux_nil (p : Nat) (ps : JSString) (i : Nat) : indexOfAux (p :: ps) [] i = none := by
  simp [indexOfAux]

/-- A stretch without the first code unit of the pattern holds no match. -/
theorem indexOfAux_skip (p : Nat) (ps : JSString) :
    ∀ (a rest : List Nat) (i : Nat), p ∉ a →
      indexOfAux (p :: ps) (a ++ rest) i = indexOfAux (p :: ps) rest (i + a.length) := by
  intro a
  induction a with
  | nil => intro rest i _; simp
  | cons c a ih =>
    intro rest i h
    simp only [List.mem_cons, not_or] at h
    have hm : (p :: ps).isPrefixOf (c :: (a ++ rest)) = false := by
      simp [List.isPrefixOf, h.1]
    rw [List.cons_append, indexOfAux_cons_miss i hm, ih rest (i + 1) h.2]
    congr 1
    simp; omega

theorem indexOf_at {pre suf : JSString} (pat : JSString) {pos : Nat} (h : pos = pre.length) :
    indexOf (pre ++ suf) pat pos = indexOfAux pat suf pos := by
  subst h
  simp [indexOf]

theorem dropWhile_isWhitespace_of_none {l : JSString} (h : ∀ u ∈ l, isWhitespace u = false) :
    l.dropWhile isWhitespace = l := by
  cases l with
  | nil => rfl
  | cons a l => simp [List.dropWhile, h a (List.mem_cons_self a l)]

theorem trim_of_no_whitespace {l : JSString} (h : ∀ u ∈ l, isWhitespace u = false) :
    trim l = l := by
  unfold trim
  rw [dropWhile_isWhitespace_of_none h, dropWhile_isWhitespace_of_none, List.reverse_reverse]
  intro u hu
  exact h u (List.mem_reverse.1 hu)

theorem takeWhile_not_whitespace {l : JSString} (h : ∀ u ∈ l, isWhitespace u = false) :
    (l.takeWhile fun u => !isWhitespace u) = l := by
  rw [List.takeWhile_eq_self_iff]
  intro u hu
  simp [h u hu]

theorem slice_mid (pre mid post : JSString) {a b : Nat} (ha : a = pre.length)
    (hb : b = pre.length + mid.length) : slice (pre ++ (mid ++ post)) a b = mid := by
  subst ha hb
  simp [slice]


theorem open_not_prefix_close {t : JSString} (hsl : t.head? ≠ some 0x2F) (ht : t ≠ [])
    (rest : JSString) : (0x3C :: t).isPrefixOf (0x3C :: 0x2F :: rest) = false := by
  cases t with
  | nil => exact absurd rfl ht
  | cons a t =>
    have : a ≠ 0x2F := by simpa using hsl
    simp [List.isPrefixOf, this]

theorem close_not_prefix_open {t : JSString} (hsl : t.head? ≠ some 0x2F) (ht : t ≠ [])
    (rest : JSString) : (0x3C :: 0x2F :: (t ++ [0x3E])).isPrefixOf (0x3C :: (t ++ rest)) = false := by
  cases t with
  | nil => exact absurd rfl ht
  | cons a t =>
    have : a ≠ 0x2F := by simpa using hsl
    simp [List.isPrefixOf, Ne.symm this]

theorem isPrefixOf_append_self (p rest : JSString) : p.isPrefixOf (p ++ rest) = true := by
  rw [List.isPrefixOf_iff_prefix]; exact List.prefix_append p rest
/-- First match of `"</t>"` in `y ++ "</t>" ++ rest` when `y` has no `<`. -/
theorem indexOfAux_close_skip_hit {t y : JSString} (rest : JSString) (i : Nat)
    (hy : 0x3C ∉ y) :
    indexOfAux (0x3C :: 0x2F :: (t ++ [0x3E])) (y ++ (0x3C :: 0x2F :: (t ++ [0x3E]) ++ rest)) i
      = some (i + y.length) := by
  rw [indexOfAux_skip _ _ _ _ _ hy]
  exact indexOfAux_cons_hit _ (isPrefixOf_append_self (0x3C :: 0x2F :: (t ++ [0x3E])) rest)

/-- The opener `"<t"` has no match within `y ++ "</t>"` when `y` has no `<`. -/
theorem indexOfAux_open_skip_close {t y : JSString} (rest : JSString) (i : Nat)
    (hy : 0x3C ∉ y) (ht : t ≠ []) (hsl : t.head? ≠ some 0x2F) (hlt : 0x3C ∉ t) :
    indexOfAux (0x3C :: t) (y ++ (0x3C :: 0x2F :: (t ++ [0x3E]) ++ rest)) i
      = indexOfAux (0x3C :: t) rest (i + y.length + t.length + 3) := by
  rw [indexOfAux_skip _ _ _ _ _ hy]
  rw [List.cons_append, List.cons_append, indexOfAux_cons_miss _ (open_not_prefix_close hsl ht _)]
  have h2 : (0x3C : Nat) ∉ 0x2F :: (t ++ [0x3E]) := by simp [hlt]
  rw [← List.cons_append, indexOfAux_skip _ _ _ _ _ h2]
  congr 1
  simp; omega

theorem findClose_nested (t x y : JSString) (k : Nat) (ht : t ≠ [])
    (hsl : t.head? ≠ some 0x2F) (hlt : 0x3C ∉ t) (hx : 0x3C ∉ x) (hy : 0x3C ∉ y) :
    findClose (nestedInput t x y) t (0x3C :: 0x2F :: (t ++ [0x3E])) (k + 3) (t.length + 2) 1
      = some (3 * t.length + 7 + x.length + y.length) := by
  have htx : (0x3C : Nat) ∉ t ++ 0x3E :: x := by simp [hlt, hx]
  have hB1 : nestedInput t x y = (0x3C :: (t ++ [0x3E])) ++
      (0x3C :: ((t ++ 0x3E :: x) ++ (0x3C :: 0x2F :: (t ++ [0x3E]) ++
        (y ++ (0x3C :: 0x2F :: (t ++ [0x3E]) ++ []))))) := by simp [nestedInput]
  have hB2 : nestedInput t x y = (0x3C :: (t ++ [0x3E]) ++ [0x3C]) ++
      ((t ++ 0x3E :: x) ++ (0x3C :: 0x2F :: (t ++ [0x3E]) ++
        (y ++ (0x3C :: 0x2F :: (t ++ [0x3E]) ++ [])))) := by simp [nestedInput]
  have hB3 : nestedInput t x y = (0x3C :: (t ++ [0x3E]) ++ [0x3C] ++ (t ++ 0x3E :: x) ++
      (0x3C :: 0x2F :: (t ++ [0x3E]))) ++
        (y ++ (0x3C :: 0x2F :: (t ++ [0x3E]) ++ [])) := by simp [nestedInput]
  have h1o : indexOf (nestedInput t x y) (0x3C :: t) (t.length + 2) = some (t.length + 2) := by
    rw [hB1, indexOf_at _ (by simp)]
    apply indexOfAux_cons_hit
    rw [List.append_assoc, ← List.cons_append]
    exact isPrefixOf_append_self _ _
  have h1c : indexOf (nestedInput t x y) (0x3C :: 0x2F :: (t ++ [0x3E])) (t.length + 2)
      = some (2 * t.length + 4 + x.length) := by
    rw [hB1, indexOf_at _ (by simp)]
    rw [List.append_assoc, indexOfAux_cons_miss _ (close_not_prefix_open hsl ht _)]
    rw [← List.append_assoc, indexOfAux_close_skip_hit _ _ htx]
    congr 1; simp; omega
  have h2o : indexOf (nestedInput t x y) (0x3C :: t) (t.length + 2 + 1) = none := by
    rw [hB2, indexOf_at _ (by simp)]
    rw [indexOfAux_open_skip_close _ _ htx ht hsl hlt,
      indexOfAux_open_skip_close _ _ hy ht hsl hlt, indexOfAux_nil]
  have h2c : indexOf (nestedInput t x y) (0x3C :: 0x2F :: (t ++ [0x3E])) (t.length + 2 + 1)
      = some (2 * t.length + 4 + x.length) := by
    rw [hB2, indexOf_at _ (by simp)]
    rw [indexOfAux_close_skip_hit _ _ htx]
    congr 1; simp; omega
  have h3o : indexOf (nestedInput t x y) (0x3C :: t)
      (2 * t.length + 4 + x.length + (t.length + 3)) = none := by
    rw [hB3, indexOf_at _ (by simp; omega)]
    rw [indexOfAux_open_skip_close _ _ hy ht hsl hlt, indexOfAux_nil]
  have h3c : indexOf (nestedInput t x y) (0x3C :: 0x2F :: (t ++ [0x3E]))
      (2 * t.length + 4 + x.length + (t.length + 3))
      = some (3 * t.length + 7 + x.length + y.length) := by
    rw [hB3, indexOf_at _ (by simp; omega)]
    rw [indexOfAux_close_skip_hit _ _ hy]
    congr 1; omega
  have hlen : (0x3C :: 0x2F :: (t ++ [0x3E])).length = t.length + 3 := by simp
  rw [findClose]
  simp only [h1o, h1c, Option.getD_some]
  rw [if_pos (by simp; omega)]
  rw [findClose]
  simp only [h2o, h2c]
  rw [if_neg (by simp), if_neg (by simp)]
  rw [findClose, hlen]
  simp only [h3o, h3c]
  simp
theorem scanStep_nested (t x y : JSString) (ht : t ≠ [])
    (hws : ∀ u ∈ t, isWhitespace u = false) (hlt : 0x3C ∉ t) (hgt : 0x3E ∉ t)
    (hsl : t.head? ≠ some 0x2F) (hx : 0x3C ∉ x) (hy : 0x3C ∉ y) :
    scanStep (nestedInput t x y) 0 =
      .extract ⟨t, 0x3C :: (t ++ 0x3E :: (x ++ 0x3C :: 0x2F :: (t ++ 0x3E :: y)))⟩ [] := by
  have hopen : indexOf (nestedInput t x y) [0x3C] 0 = some 0 := by
    simp [indexOf, nestedInput, indexOfAux, List.isPrefixOf]
  have hgtIdx : indexOf (nestedInput t x y) [0x3E] (0 + 1) = some (t.length + 1) := by
    have hB : nestedInput t x y = [0x3C] ++ (t ++ (0x3E :: 0x3C :: (t ++ 0x3E :: (x ++
        0x3C :: 0x2F :: (t ++ 0x3E :: (y ++ 0x3C :: 0x2F :: (t ++ [0x3E]))))))) := by
      simp [nestedInput]
    rw [hB, indexOf_at _ (by simp), indexOfAux_skip _ _ _ _ _ hgt]
    rw [indexOfAux_cons_hit _ (by simp [List.isPrefixOf])]
    congr 1; omega
  have hhead : slice (nestedInput t x y) (0 + 1) (t.length + 1) = t := by
    have hB : nestedInput t x y = [0x3C] ++ (t ++ (0x3E :: 0x3C :: (t ++ 0x3E :: (x ++
        0x3C :: 0x2F :: (t ++ 0x3E :: (y ++ 0x3C :: 0x2F :: (t ++ [0x3E]))))))) := by
      simp [nestedInput]
    rw [hB]
    exact slice_mid _ _ _ (by simp) (by simp; omega)
  have hlenB : (nestedInput t x y).length + 1 = ((nestedInput t x y).length - 2) + 3 := by
    simp [nestedInput]; omega
  have hclose : findClose (nestedInput t x y) t (0x3C :: 0x2F :: (t ++ [0x3E]))
      ((nestedInput t x y).length + 1) (t.length + 1 + 1) 1
        = some (3 * t.length + 7 + x.length + y.length) := by
    rw [hlenB]
    exact findClose_nested t x y _ ht hsl hlt hx hy
  have hraw : slice (nestedInput t x y) (t.length + 1 + 1)
      (3 * t.length + 7 + x.length + y.length)
        = 0x3C :: (t ++ 0x3E :: (x ++ 0x3C :: 0x2F :: (t ++ 0x3E :: y))) := by
    have hB : nestedInput t x y = (0x3C :: (t ++ [0x3E])) ++
        ((0x3C :: (t ++ 0x3E :: (x ++ 0x3C :: 0x2F :: (t ++ 0x3E :: y)))) ++
          (0x3C :: 0x2F :: (t ++ [0x3E]))) := by
      simp [nestedInput]
    rw [hB]
    exact slice_mid _ _ _ (by simp) (by simp; omega)
  have hrest : (nestedInput t x y).drop
      (3 * t.length + 7 + x.length + y.length + (0x3C :: 0x2F :: (t ++ [0x3E])).length) = [] := by
    apply List.drop_of_length_le
    simp [nestedInput]; omega
  have hne : ¬ (t = [] ∨ t.head? = some 0x2F) := by
    rintro (h | h)
    · exact ht h
    · exact hsl h
  unfold scanStep
  simp only [hopen, hgtIdx, hhead, trim_of_no_whitespace hws, takeWhile_not_whitespace hws,
    if_neg hne, List.cons_append, List.nil_append, hclose, hraw, hrest]
  simp [slice]

theorem extractLoop_after_last (fuel : Nat) (modules : List Module) :
    extractLoop fuel [] 0 modules = (modules, []) := by
  cases fuel with
  | zero => rfl
  | succ n => rfl

/-- C9: for every tag name `t` (non-empty, without white space, `<` or `>`, not starting with
`/`) and all `x`, `y` without `<`, `extractCompleteModules("<t><t>x</t>y</t>")` returns exactly the
one module `{ tag: t, raw: "<t>x</t>y" }` and an empty remainder. -/
theorem extractCompleteModules_nested (t x y : JSString) (ht : t ≠ [])
    (hws : ∀ u ∈ t, isWhitespace u = false) (hlt : 0x3C ∉ t) (hgt : 0x3E ∉ t)
    (hsl : t.head? ≠ some 0x2F) (hx : 0x3C ∉ x) (hy : 0x3C ∉ y) :
    extractCompleteModules
        ([0x3C] ++ t ++ [0x3E] ++ [0x3C] ++ t ++ [0x3E] ++ x ++ [0x3C, 0x2F] ++ t ++ [0x3E] ++ y
          ++ [0x3C, 0x2F] ++ t ++ [0x3E])
      = ([⟨t, [0x3C] ++ t ++ [0x3E] ++ x ++ [0x3C, 0x2F] ++ t ++ [0x3E] ++ y⟩], []) := by
  have hin : [0x3C] ++ t ++ [0x3E] ++ [0x3C] ++ t ++ [0x3E] ++ x ++ [0x3C, 0x2F] ++ t ++ [0x3E]
      ++ y ++ [0x3C, 0x2F] ++ t ++ [0x3E] = nestedInput t x y := by
    simp [nestedInput]
  have hraw : [0x3C] ++ t ++ [0x3E] ++ x ++ [0x3C, 0x2F] ++ t ++ [0x3E] ++ y
      = 0x3C :: (t ++ 0x3E :: (x ++ 0x3C :: 0x2F :: (t ++ 0x3E :: y))) := by simp
  rw [hin, hraw]
  unfold extractCompleteModules extractFuel
  rw [extractLoop, scanStep_nested t x y ht hws hlt hgt hsl hx hy]
  exact extractLoop_after_last _ _

theorem extractCompleteModules_nested_witness :
    extractCompleteModules (js "<a><a>x</a>y</a>") = ([⟨js "a", js "<a>x</a>y"⟩], []) :=
  extractCompleteModules_nested (js "a") (js "x") (js "y") (by decide) (by decide) (by decide)
    (by decide) (by decide) (by decide) (by decide)
/-! ### Bounds on what the searches return, and termination of the extraction loop -/

theorem isPrefixOf_length_le {p l : JSString} (h : p.isPrefixOf l = true) :
    p.length ≤ l.length := by
  rw [List.isPrefixOf_iff_prefix] at h
  exact h.length_le

theorem indexOfAux_bounds (pat : JSString) :
    ∀ (l : List Nat) (i k : Nat), indexOfAux pat l i = some k →
      i ≤ k ∧ k + pat.length ≤ i + l.length := by
  intro l
  induction l with
  | nil =>
    intro i k h
    by_cases hp : pat = []
    · simp [indexOfAux, hp] at h; subst h; simp [hp]
    · simp [indexOfAux, hp] at h
  | cons c rest ih =>
    intro i k h
    by_cases hp : pat.isPrefixOf (c :: rest) = true
    · rw [indexOfAux_cons_hit i hp] at h
      have := isPrefixOf_length_le hp
      simp only [Option.some.injEq] at h
      subst h
      omega
    · rw [indexOfAux_cons_miss i (Bool.eq_false_iff.2 hp)] at h
      have := ih (i + 1) k h
      simp only [List.length_cons]
      omega

theorem indexOf_bounds {s : JSString} {p : Nat} {ps : JSString} {pos k : Nat}
    (h : indexOf s (p :: ps) pos = some k) : pos ≤ k ∧ k + (ps.length + 1) ≤ s.length := by
  unfold indexOf at h
  have hb := indexOfAux_bounds _ _ _ _ h
  simp only [List.length_cons, List.length_drop] at hb
  omega

theorem findClose_bounds (buffer tagName : JSString) (c : Nat) (cs : JSString) :
    ∀ (fuel searchPos depth k : Nat),
      findClose buffer tagName (c :: cs) fuel searchPos depth = some k →
      searchPos ≤ k ∧ k + (cs.length + 1) ≤ buffer.length := by
  intro fuel
  induction fuel with
  | zero => intro searchPos depth k h; simp [findClose] at h
  | succ n ih =>
    intro searchPos depth k h
    rw [findClose] at h
    cases hc : indexOf buffer (c :: cs) searchPos with
    | none => simp [hc] at h
    | some nextClose =>
      have hcb := indexOf_bounds hc
      simp only [hc] at h
      cases ho : indexOf buffer (0x3C :: tagName) searchPos with
      | none =>
        simp only [ho, Bool.false_eq_true, if_false] at h
        split_ifs at h with h1
        · simp at h; omega
        · have := ih _ _ _ h
          simp only [List.length_cons] at this
          omega
      | some o =>
        have hob := indexOf_bounds ho
        simp only [ho, Option.getD_some] at h
        split_ifs at h with h1 h2
        · have := ih _ _ _ h
          omega
        · simp at h; omega
        · have := ih _ _ _ h
          simp only [List.length_cons] at this
          omega

theorem scanStep_skip_bounds {buffer : JSString} {cursor c : Nat}
    (h : scanStep buffer cursor = .skip c) : cursor < c ∧ c ≤ buffer.length := by
  unfold scanStep at h
  cases ho : indexOf buffer [0x3C] cursor with
  | none => simp [ho] at h
  | some openIdx =>
    have hob := indexOf_bounds ho
    simp only [ho] at h
    cases hg : indexOf buffer [0x3E] (openIdx + 1) with
    | none => simp [hg] at h
    | some gtIdx =>
      have hgb := indexOf_bounds hg
      simp only [hg] at h
      split_ifs at h with h1
      · simp only [ScanStep.skip.injEq] at h
        simp only [List.length_nil] at hob hgb
        omega
      · split at h <;> simp at h

theorem scanStep_extract_bounds {buffer : JSString} {cursor : Nat} {m : Module} {b : JSString}
    (h : scanStep buffer cursor = .extract m b) : b.length < buffer.length := by
  unfold scanStep at h
  cases ho : indexOf buffer [0x3C] cursor with
  | none => simp [ho] at h
  | some openIdx =>
    have hob := indexOf_bounds ho
    simp only [ho] at h
    cases hg : indexOf buffer [0x3E] (openIdx + 1) with
    | none => simp [hg] at h
    | some gtIdx =>
      have hgb := indexOf_bounds hg
      simp only [hg] at h
      split_ifs at h with h1
      split at h
      · simp at h
      · next foundCloseIdx hf =>
        simp only [List.cons_append, List.nil_append] at hf
        have hfb := findClose_bounds _ _ _ _ _ _ _ _ hf
        simp only [ScanStep.extract.injEq] at h
        rw [← h.2]
        simp only [List.length_nil, List.length_append, List.length_cons, List.length_singleton,
          slice, List.length_take, List.length_drop, List.cons_append, List.nil_append] at *
        omega

theorem extractFuel_pos (buffer : JSString) (cursor : Nat) : 0 < extractFuel buffer cursor := by
  unfold extractFuel; omega

theorem extractFuel_skip {buffer : JSString} {cursor c : Nat}
    (h : scanStep buffer cursor = .skip c) : extractFuel buffer c < extractFuel buffer cursor := by
  have := scanStep_skip_bounds h
  unfold extractFuel
  omega

theorem extractFuel_extract {buffer : JSString} {cursor : Nat} {m : Module} {b : JSString}
    (h : scanStep buffer cursor = .extract m b) : extractFuel b 0 < extractFuel buffer cursor := by
  have hlt := scanStep_extract_bounds h
  unfold extractFuel
  have h1 : (b.length + 1) * (b.length + 1) ≤ buffer.length * buffer.length :=
    Nat.mul_le_mul hlt hlt
  have h2 : b.length * (b.length + 1) + (b.length - 0) + 1 = (b.length + 1) * (b.length + 1) := by
    simp only [Nat.sub_zero]; ring
  have h3 : buffer.length * (buffer.length + 1) = buffer.length * buffer.length + buffer.length := by
    ring
  omega
/-- The fuel of the inner loop is never used up: with `buffer.length + 1 - searchPos` rounds or
more, the result does not depend on the fuel. -/
theorem findClose_fuel (buffer tagName : JSString) (c : Nat) (cs : JSString) :
    ∀ (fuel searchPos depth : Nat), buffer.length + 1 ≤ fuel + searchPos →
      findClose buffer tagName (c :: cs) fuel searchPos depth =
        findClose buffer tagName (c :: cs) (fuel + 1) searchPos depth := by
  intro fuel
  induction fuel with
  | zero =>
    intro searchPos depth hf
    rw [findClose, findClose]
    cases hc : indexOf buffer (c :: cs) searchPos with
    | none => rfl
    | some nextClose =>
      have := indexOf_bounds hc
      omega
  | succ n ih =>
    intro searchPos depth hf
    conv_lhs => rw [findClose]
    conv_rhs => rw [findClose]
    cases hc : indexOf buffer (c :: cs) searchPos with
    | none => rfl
    | some nextClose =>
      have hcb := indexOf_bounds hc
      simp only
      cases ho : indexOf buffer (0x3C :: tagName) searchPos with
      | none =>
        simp only [Bool.false_eq_true, if_false]
        split_ifs with h1
        · rfl
        · exact ih _ _ (by simp only [List.length_cons]; omega)
      | some o =>
        have hob := indexOf_bounds ho
        simp only [Option.getD_some]
        split_ifs with h1 h2
        · exact ih _ _ (by omega)
        · rfl
        · exact ih _ _ (by simp only [List.length_cons]; omega)

/-- The fuel of the outer loop is never used up: from `extractFuel buffer cursor` on, the result
does not depend on the fuel. -/
theorem extractLoop_fuel :
    ∀ (fuel : Nat) (buffer : JSString) (cursor : Nat) (modules : List Module),
      extractFuel buffer cursor ≤ fuel →
      extractLoop fuel buffer cursor modules = extractLoop (fuel + 1) buffer cursor modules := by
  intro fuel
  induction fuel with
  | zero =>
    intro buffer cursor modules hf
    have := extractFuel_pos buffer cursor
    omega
  | succ n ih =>
    intro buffer cursor modules hf
    conv_lhs => rw [extractLoop]
    conv_rhs => rw [extractLoop]
    cases hs : scanStep buffer cursor with
    | done => rfl
    | skip c =>
      have := extractFuel_skip hs
      exact ih _ _ _ (by omega)
    | extract m b =>
      have := extractFuel_extract hs
      exact ih _ _ _ (by omega)

theorem quiet_of_done {buffer : JSString} {cursor : Nat} (h : scanStep buffer cursor = .done) :
    Quiet buffer cursor := by
  intro fuel modules hf
  have := extractFuel_pos buffer cursor
  obtain ⟨n, rfl⟩ : ∃ n, fuel = n + 1 := ⟨fuel - 1, by omega⟩
  rw [extractLoop, h]

theorem quiet_of_skip {buffer : JSString} {cursor c : Nat} (h : scanStep buffer cursor = .skip c)
    (hq : Quiet buffer c) : Quiet buffer cursor := by
  intro fuel modules hf
  have := extractFuel_skip h
  obtain ⟨n, rfl⟩ : ∃ n, fuel = n + 1 := ⟨fuel - 1, by omega⟩
  rw [extractLoop, h]
  exact hq n modules (by omega)

/-- Whatever the loop returns, a fresh scan of the returned buffer pushes nothing. -/
theorem extractLoop_remainder_quiet :
    ∀ (fuel : Nat) (buffer : JSString) (cursor : Nat) (modules : List Module),
      extractFuel buffer cursor ≤ fuel → (Quiet buffer cursor → Quiet buffer 0) →
      Quiet (extractLoop fuel buffer cursor modules).2 0 := by
  intro fuel
  induction fuel with
  | zero =>
    intro buffer cursor modules hf
    have := extractFuel_pos buffer cursor
    omega
  | succ n ih =>
    intro buffer cursor modules hf hreach
    rw [extractLoop]
    cases hs : scanStep buffer cursor with
    | done => exact hreach (quiet_of_done hs)
    | skip c =>
      have := extractFuel_skip hs
      exact ih _ _ _ (by omega) fun hq => hreach (quiet_of_skip hs hq)
    | extract m b =>
      have := extractFuel_extract hs
      exact ih _ _ _ (by omega) id

/-- C10 (counterexample): in `"<br><b>x</b>"` the opener `<br>` has no closing tag; the loop
breaks there, returns no module and the whole text as remainder, although the remainder holds the
complete module `<b>x</b>` at index 4. -/
theorem extractCompleteModules_stops_at_unclosed :
    extractCompleteModules (js "<br><b>x</b>") = ([], js "<br><b>x</b>") ∧
      moduleAt (extractCompleteModules (js "<br><b>x</b>")).2 4 = some ⟨js "b", js "x"⟩ := by
  decide

/-- C10 (amended): for every buffer, a second run of `extractCompleteModules` on the remainder
returns no module and the same remainder: the scan from the start of the remainder passes only
empty or closing tokens until it meets a `<` without `>`, an opening token for which the search
finds no balancing closing tag, or the end of the text. -/
theorem extractCompleteModules_remainder_stable (buffer : JSString) :
    extractCompleteModules (extractCompleteModules buffer).2 =
      ([], (extractCompleteModules buffer).2) := by
  have hq := extractLoop_remainder_quiet (extractFuel buffer 0) buffer 0 [] (Nat.le_refl _) id
  exact hq _ [] (Nat.le_refl _)

/-- C1 (failing input): the text `"hello<think>plan</think>world"` fed to the `'data'` handler in
one chunk gives the module `{ tag: "think", raw: "plan" }` and the leftover text `"helloworld"`;
fed as `["hello<th", "ink>pl", "an</think>world"]` it gives no module at all and the leftover text
`"hello<think>planworld"`, because `chunkBuffer` is emptied after every chunk. -/
theorem dataStep_depends_on_chunking :
    feedChunks .init [js "hello<think>plan</think>world"] =
        (⟨js "hello<think>plan</think>world", [], js "helloworld"⟩, [⟨js "think", js "plan"⟩]) ∧
      feedChunks .init [js "hello<th", js "ink>pl", js "an</think>world"] =
        (⟨js "hello<think>plan</think>world", [], js "hello<think>planworld"⟩, []) := by
  decide

/-! ## UTF-8: decoding undoes encoding on well-formed strings -/

theorem utf8Decode_one {b : Nat} (rest : Bytes) (h : b < 0x80) :
    utf8DecodeCodePoints (b :: rest) none = b :: utf8DecodeCodePoints rest none := by
  simp [utf8DecodeCodePoints, utf8Step, utf8Lead, h]

theorem utf8Decode_two (b0 b1 : Nat) (rest : Bytes) (h0 : 0xC2 ≤ b0 ∧ b0 ≤ 0xDF)
    (h1 : 0x80 ≤ b1 ∧ b1 ≤ 0xBF) :
    utf8DecodeCodePoints (b0 :: b1 :: rest) none =
      ((b0 - 0xC0) * 0x40 + (b1 - 0x80)) :: utf8DecodeCodePoints rest none := by
  have e0 : utf8Lead b0 = (some ⟨b0 - 0xC0, 1, 0x80, 0xBF⟩, []) := by
    unfold utf8Lead
    rw [if_neg (by omega), if_pos h0]
  simp [utf8DecodeCodePoints, utf8Step, e0, h1]

theorem utf8Decode_three (b0 b1 b2 : Nat) (rest : Bytes) (h0 : 0xE0 ≤ b0 ∧ b0 ≤ 0xEF)
    (h1 : (if b0 = 0xE0 then 0xA0 else 0x80) ≤ b1 ∧ b1 ≤ (if b0 = 0xED then 0x9F else 0xBF))
    (h2 : 0x80 ≤ b2 ∧ b2 ≤ 0xBF) :
    utf8DecodeCodePoints (b0 :: b1 :: b2 :: rest) none =
      (((b0 - 0xE0) * 0x40 + (b1 - 0x80)) * 0x40 + (b2 - 0x80)) ::
        utf8DecodeCodePoints rest none := by
  have e0 : utf8Lead b0 = (some ⟨b0 - 0xE0, 2, if b0 = 0xE0 then 0xA0 else 0x80,
      if b0 = 0xED then 0x9F else 0xBF⟩, []) := by
    unfold utf8Lead
    rw [if_neg (by omega), if_neg (by omega), if_pos h0]
  simp [utf8DecodeCodePoints, utf8Step, e0, h1, h2]

theorem utf8Decode_four (b0 b1 b2 b3 : Nat) (rest : Bytes) (h0 : 0xF0 ≤ b0 ∧ b0 ≤ 0xF4)
    (h1 : (if b0 = 0xF0 then 0x90 else 0x80) ≤ b1 ∧ b1 ≤ (if b0 = 0xF4 then 0x8F else 0xBF))
    (h2 : 0x80 ≤ b2 ∧ b2 ≤ 0xBF) (h3 : 0x80 ≤ b3 ∧ b3 ≤ 0xBF) :
    utf8DecodeCodePoints (b0 :: b1 :: b2 :: b3 :: rest) none =
      ((((b0 - 0xF0) * 0x40 + (b1 - 0x80)) * 0x40 + (b2 - 0x80)) * 0x40 + (b3 - 0x80)) ::
        utf8DecodeCodePoints rest none := by
  have e0 : utf8Lead b0 = (some ⟨b0 - 0xF0, 3, if b0 = 0xF0 then 0x90 else 0x80,
      if b0 = 0xF4 then 0x8F else 0xBF⟩, []) := by
    unfold utf8Lead
    rw [if_neg (by omega), if_neg (by omega), if_neg (by omega), if_pos h0]
  simp [utf8DecodeCodePoints, utf8Step, e0, h1, h2, h3]

theorem utf8Decode_encodeCodePoint {c : Nat} (hc : IsScalar c) (rest : Bytes) :
    utf8DecodeCodePoints (utf8EncodeCodePoint c ++ rest) none =
      c :: utf8DecodeCodePoints rest none := by
  obtain ⟨hlt, hs⟩ := hc
  have hs2 : ¬ (0xD800 ≤ c ∧ c ≤ 0xDFFF) := by
    simpa [isSurrogate] using hs
  unfold utf8EncodeCodePoint
  split_ifs with h1 h2 h3 h4
  · exact utf8Decode_one rest h1
  · simp only [List.cons_append, List.nil_append]
    rw [utf8Decode_two (0xC0 + c / 0x40) (0x80 + c % 0x40) rest (by omega) (by omega)]
    have e : (0xC0 + c / 0x40 - 0xC0) * 0x40 + (0x80 + c % 0x40 - 0x80) = c := by omega
    rw [e]
  · simp [hs] at h3
  · simp only [List.cons_append, List.nil_append]
    rw [utf8Decode_three (0xE0 + c / 0x1000) (0x80 + c / 0x40 % 0x40) (0x80 + c % 0x40) rest
      (by omega) (by split_ifs <;> omega) (by omega)]
    have e : ((0xE0 + c / 0x1000 - 0xE0) * 0x40 + (0x80 + c / 0x40 % 0x40 - 0x80)) * 0x40 +
        (0x80 + c % 0x40 - 0x80) = c := by omega
    rw [e]
  · simp only [List.cons_append, List.nil_append]
    rw [utf8Decode_four (0xF0 + c / 0x40000) (0x80 + c / 0x1000 % 0x40) (0x80 + c / 0x40 % 0x40)
      (0x80 + c % 0x40) rest (by omega) (by split_ifs <;> omega) (by omega) (by omega)]
    have e : (((0xF0 + c / 0x40000 - 0xF0) * 0x40 + (0x80 + c / 0x1000 % 0x40 - 0x80)) * 0x40 +
        (0x80 + c / 0x40 % 0x40 - 0x80)) * 0x40 + (0x80 + c % 0x40 - 0x80) = c := by omega
    rw [e]

theorem utf8Decode_encodeCodePoints :
    ∀ cps : List Nat, (∀ c ∈ cps, IsScalar c) →
      utf8DecodeCodePoints (cps.flatMap utf8EncodeCodePoint) none = cps := by
  intro cps
  induction cps with
  | nil => intro _; rfl
  | cons c cps ih =>
    intro h
    rw [List.flatMap_cons, utf8Decode_encodeCodePoint (h c (List.mem_cons_self c cps)),
      ih fun d hd => h d (List.mem_cons_of_mem c hd)]
theorem codePoints_wellFormed :
    ∀ s : JSString, WellFormed s →
      (∀ c ∈ codePoints s, IsScalar c) ∧ (codePoints s).flatMap codePointUnits = s := by
  intro s
  induction s using codePoints.induct with
  | case1 => intro _; simp [codePoints]
  | case2 u =>
    rintro ⟨hv, hw⟩
    have hu : u < 0x10000 := hv u (List.mem_singleton_self u)
    have hs : isSurrogate u = false := by simpa [isWellFormed, codePoints] using hw
    simp only [codePoints, List.mem_singleton, forall_eq, List.flatMap_cons, List.flatMap_nil,
      List.append_nil]
    exact ⟨⟨by omega, hs⟩, by simp [codePointUnits, hu]⟩
  | case3 u v rest h ih =>
    rintro ⟨hv, hw⟩
    have hpair := h
    simp only [Bool.and_eq_true, isHighSurrogate, isLowSurrogate, decide_eq_true_eq] at hpair
    simp only [isWellFormed, codePoints, h, if_true, List.all_cons, Bool.and_eq_true] at hw
    have hrest : WellFormed rest :=
      ⟨fun w hw2 => hv w (List.mem_cons_of_mem u (List.mem_cons_of_mem v hw2)), hw.2⟩
    obtain ⟨ih1, ih2⟩ := ih hrest
    simp only [codePoints, h, if_true, List.mem_cons, forall_eq_or_imp, List.flatMap_cons]
    refine ⟨⟨⟨by omega, ?_⟩, ih1⟩, ?_⟩
    · simp only [isSurrogate, Bool.and_eq_false_imp, decide_eq_true_eq, decide_eq_false_iff_not]
      omega
    · rw [ih2]
      have e : codePointUnits (0x10000 + (u - 0xD800) * 0x400 + (v - 0xDC00)) = [u, v] := by
        unfold codePointUnits
        rw [if_neg (by omega)]
        have e1 : 0xD800 + (0x10000 + (u - 0xD800) * 0x400 + (v - 0xDC00) - 0x10000) / 0x400 = u := by
          omega
        have e2 : 0xDC00 + (0x10000 + (u - 0xD800) * 0x400 + (v - 0xDC00) - 0x10000) % 0x400 = v := by
          omega
        rw [e1, e2]
      rw [e]; rfl
  | case4 u v rest h ih =>
    rintro ⟨hv, hw⟩
    have hu : u < 0x10000 := hv u (List.mem_cons_self u _)
    simp only [isWellFormed, codePoints, h, if_false, List.all_cons, Bool.and_eq_true,
      Bool.not_eq_true', Bool.false_eq_true] at hw
    have hrest : WellFormed (v :: rest) :=
      ⟨fun w hw2 => hv w (List.mem_cons_of_mem u hw2), hw.2⟩
    obtain ⟨ih1, ih2⟩ := ih hrest
    simp only [codePoints, h, if_false, List.mem_cons, forall_eq_or_imp, List.flatMap_cons,
      Bool.false_eq_true]
    refine ⟨⟨⟨by omega, hw.1⟩, ?_⟩, ?_⟩
    · intro c hc
      exact ih1 c (by simpa using hc)
    · rw [ih2]; simp [codePointUnits, hu]

/-- Decoding the UTF-8 bytes of a well-formed string gives the string back. -/
theorem utf8Decode_utf8Encode {s : JSString} (h : WellFormed s) : utf8Decode (utf8Encode s) = s := by
  obtain ⟨h1, h2⟩ := codePoints_wellFormed s h
  unfold utf8Decode utf8Encode
  rw [utf8Decode_encodeCodePoints _ h1, h2]
/-! ## The envelope: `pkcs7Unpad` undoes `pkcs7Pad`, `aesDecrypt` undoes `aesEncrypt` -/

theorem pkcs7Unpad_pkcs7Pad (buffer : Bytes) : pkcs7Unpad (pkcs7Pad buffer) = buffer := by
  have hpad : 1 ≤ 32 - buffer.length % 32 ∧ 32 - buffer.length % 32 ≤ 32 := by omega
  generalize hp : 32 - buffer.length % 32 = pad at hpad
  have hlast : (buffer ++ List.replicate pad pad).getLast? = some pad := by
    rw [List.getLast?_append, List.getLast?_replicate, if_neg (by omega)]
    rfl
  unfold pkcs7Unpad pkcs7Pad
  simp only [hp, hlast]
  rw [if_neg (by omega)]
  unfold sliceTo
  simp only [List.length_append, List.length_replicate, Nat.cast_add, add_sub_cancel_right]
  rw [if_neg (by omega)]
  simp

theorem readUInt32BE_writeUInt32BE {v : Nat} {lenBuf : Bytes} (h : writeUInt32BE v = some lenBuf) :
    v < 2 ^ 32 ∧ lenBuf.length = 4 ∧ readUInt32BE lenBuf = some v := by
  unfold writeUInt32BE at h
  split_ifs at h with hv
  simp only [Option.some.injEq] at h
  subst h
  refine ⟨hv, rfl, ?_⟩
  simp only [readUInt32BE, Option.some.injEq]
  norm_num at hv ⊢
  omega

/-- The layout `random(16) || length(4) || payload || receiverId` read back by fixed offsets. -/
theorem envelope_fields (random lenBuf msgBuf corpBuf : Bytes) (hr : random.length = 16)
    (hl : lenBuf.length = 4) :
    slice (random ++ lenBuf ++ msgBuf ++ corpBuf) 0 16 = random ∧
      slice (random ++ lenBuf ++ msgBuf ++ corpBuf) 16 20 = lenBuf ∧
      slice (random ++ lenBuf ++ msgBuf ++ corpBuf) 20 (20 + msgBuf.length) = msgBuf ∧
      (random ++ lenBuf ++ msgBuf ++ corpBuf).drop (20 + msgBuf.length) = corpBuf := by
  refine ⟨?_, ?_, ?_, ?_⟩
  · have := slice_mid [] random (lenBuf ++ msgBuf ++ corpBuf) (a := 0) (b := 16) rfl (by simp [hr])
    simpa [List.append_assoc] using this
  · have := slice_mid random lenBuf (msgBuf ++ corpBuf) (a := 16) (b := 20) hr.symm
      (by simp [hr, hl])
    simpa [List.append_assoc] using this
  · have := slice_mid (random ++ lenBuf) msgBuf corpBuf (a := 20) (b := 20 + msgBuf.length)
      (by simp [hr, hl]) (by simp [hr, hl])
    simpa [List.append_assoc] using this
  · have e : random ++ lenBuf ++ msgBuf ++ corpBuf = (random ++ lenBuf ++ msgBuf) ++ corpBuf := by
      simp
    rw [e]
    exact List.drop_left' (by simp [hr, hl]; omega)
theorem plain_inversePairs : CryptoLib.plain.InversePairs :=
  ⟨fun _ => rfl, fun _ _ _ _ hc => by cases hc; rfl⟩

/-- C5 (counterexample): with the receiver id `"\uD800"` (a lone surrogate) `aesEncrypt` writes
the id as the bytes of U+FFFD, and `aesDecrypt` returns `receiveId = "�"`, which is not the
id that was passed. -/
theorem aesEncrypt_rewrites_lone_surrogate_id :
    aesEncrypt .plain (List.replicate 16 0) [] (js "k") [0xD800] =
        some (List.replicate 16 0 ++ [0, 0, 0, 0] ++ [0xEF, 0xBF, 0xBD] ++ List.replicate 9 9) ∧
      aesDecrypt .plain
          (List.replicate 16 0 ++ [0, 0, 0, 0] ++ [0xEF, 0xBF, 0xBD] ++ List.replicate 9 9)
          (js "k") [0xD800] =
        some ⟨List.replicate 16 0, 0, [], [0xFFFD]⟩ ∧
      ¬ (∀ (L : CryptoLib), L.InversePairs → ∀ (random : Bytes) (msg aesKey corpId ct : JSString),
          random.length = 16 → WellFormed msg → byteLength msg < 2 ^ 32 →
          aesEncrypt L random msg aesKey corpId = some ct →
          ∃ r, aesDecrypt L ct aesKey corpId = some r ∧ r.msg = msg ∧
            r.msgLen = byteLength msg ∧ r.receiveId = corpId) := by
  refine ⟨by decide, by decide, ?_⟩
  intro h
  obtain ⟨r, hr, _, _, hid⟩ := h .plain plain_inversePairs (List.replicate 16 0) [] (js "k") [0xD800]
    (List.replicate 16 0 ++ [0, 0, 0, 0] ++ [0xEF, 0xBF, 0xBD] ++ List.replicate 9 9)
    (by decide) (by decide) (by decide) (by decide)
  have hd : aesDecrypt .plain
      (List.replicate 16 0 ++ [0, 0, 0, 0] ++ [0xEF, 0xBF, 0xBD] ++ List.replicate 9 9)
      (js "k") [0xD800] = some ⟨List.replicate 16 0, 0, [], [0xFFFD]⟩ := by decide
  rw [hd] at hr
  simp only [Option.some.injEq] at hr
  subst hr
  simp at hid

theorem pkcs7Pad_length (buffer : Bytes) : (pkcs7Pad buffer).length % 16 = 0 := by
  simp only [pkcs7Pad, List.length_append, List.length_replicate]
  omega

/-- C5 (amended): with base64 and AES as inverse pairs, for every well-formed plaintext of UTF-8
length below `2^32`, every key that the cipher accepts (on data of whole blocks) and every well-formed receiver id,
`aesEncrypt` returns a ciphertext and `aesDecrypt` of it under the same key and id returns
`msg = plaintext`, `msgLen =` the UTF-8 length of the plaintext, `receiveId = id` and the 16
random bytes. -/
theorem aesDecrypt_aesEncrypt (L : CryptoLib) (hL : L.InversePairs) (random : Bytes)
    (msg aesKey corpId : JSString) (hr : random.length = 16) (hmsg : WellFormed msg)
    (hid : WellFormed corpId) (hlen : byteLength msg < 2 ^ 32)
    (hkey : ∀ data : Bytes, data.length % 16 = 0 → (L.cipher (L.base64Decode (aesKey ++ [0x3D]))
      (slice (L.base64Decode (aesKey ++ [0x3D])) 0 16) data).isSome = true) :
    ∃ ct, aesEncrypt L random msg aesKey corpId = some ct ∧
      aesDecrypt L ct aesKey corpId = some ⟨random, byteLength msg, msg, corpId⟩ := by
  have hw : writeUInt32BE (utf8Encode msg).length = some
      [(utf8Encode msg).length / 2 ^ 24 % 256, (utf8Encode msg).length / 2 ^ 16 % 256,
        (utf8Encode msg).length / 2 ^ 8 % 256, (utf8Encode msg).length % 256] := by
    unfold writeUInt32BE
    rw [if_pos (show (utf8Encode msg).length < 2 ^ 32 from hlen)]
  generalize hlb : [(utf8Encode msg).length / 2 ^ 24 % 256, (utf8Encode msg).length / 2 ^ 16 % 256,
        (utf8Encode msg).length / 2 ^ 8 % 256, (utf8Encode msg).length % 256] = lenBuf at hw
  obtain ⟨_, hl4, hread⟩ := readUInt32BE_writeUInt32BE hw
  obtain ⟨c, hc⟩ := Option.isSome_iff_exists.1
    (hkey (pkcs7Pad (random ++ lenBuf ++ utf8Encode msg ++ utf8Encode corpId))
      (pkcs7Pad_length _))
  obtain ⟨f1, f2, f3, f4⟩ := envelope_fields random lenBuf (utf8Encode msg) (utf8Encode corpId)
    hr hl4
  refine ⟨L.base64Encode c, ?_, ?_⟩
  · unfold aesEncrypt
    simp only [hw, hc]
  · unfold aesDecrypt
    simp only [hL.base64, hL.aes _ _ _ _ hc, pkcs7Unpad_pkcs7Pad, f1, f2, hread, f3, f4,
      utf8Decode_utf8Encode hmsg, utf8Decode_utf8Encode hid, byteLength]
    simp

theorem aesDecrypt_aesEncrypt_witness :
    ∃ ct, aesEncrypt .plain (List.replicate 16 7) (js "你好 😀") (js "k") (js "corp") = some ct ∧
      aesDecrypt .plain ct (js "k") (js "corp") =
        some ⟨List.replicate 16 7, byteLength (js "你好 😀"), js "你好 😀", js "corp"⟩ :=
  aesDecrypt_aesEncrypt .plain ⟨fun _ => rfl, fun _ _ _ _ hc => by cases hc; rfl⟩
    (List.replicate 16 7) (js "你好 😀") (js "k") (js "corp") (by decide) (by decide) (by decide)
    (by decide) (fun _ _ => rfl)

/-- C6 (counterexample): the first deciphered buffer declares a payload of 5 bytes where 2 bytes
remain after the 20-byte header; `aesDecrypt`, called with the expected receiver id `"corp"`,
returns `msg = "ab"` and the empty `receiveId` instead of failing. The second buffer is a sound
envelope for the receiver `"corp"`; called with the expected receiver id `"other"`, `aesDecrypt`
returns it all the same. -/
theorem aesDecrypt_returns_on_bad_length_and_id :
    readUInt32BE (slice (pkcs7Unpad
        (List.replicate 16 0 ++ [0, 0, 0, 5] ++ js "ab" ++ List.replicate 10 10)) 16 20) = some 5 ∧
      (pkcs7Unpad (List.replicate 16 0 ++ [0, 0, 0, 5] ++ js "ab" ++ List.replicate 10 10)).length
        - 20 = 2 ∧
      aesDecrypt .plain (List.replicate 16 0 ++ [0, 0, 0, 5] ++ js "ab" ++ List.replicate 10 10)
        (js "k") (js "corp") = some ⟨List.replicate 16 0, 5, js "ab", []⟩ ∧
      aesDecrypt .plain (List.replicate 16 7 ++ [0, 0, 0, 2] ++ js "hicorp" ++ List.replicate 6 6)
        (js "k") (js "other") = some ⟨List.replicate 16 7, 2, js "hi", js "corp"⟩ := by
  decide

/-- C6 (amended): `aesDecrypt` raises in neither case. Whenever the decipher succeeds and the four
length bytes at offset 16 of the unpadded buffer can be read, it returns a message, the same one
for every expected receiver id; when the declared length exceeds the bytes that remain after the
20-byte header, `msg` is decoded from all the remaining bytes and `receiveId` is empty. -/
theorem aesDecrypt_unchecked (L : CryptoLib) (encrypt aesKey : JSString) (deciphered : Bytes)
    (msgLen : Nat)
    (hd : L.decipher (L.base64Decode (aesKey ++ [0x3D]))
      (slice (L.base64Decode (aesKey ++ [0x3D])) 0 16) (L.base64Decode encrypt) = some deciphered)
    (hlen : readUInt32BE (slice (pkcs7Unpad deciphered) 16 20) = some msgLen) :
    ∃ r, (∀ corpIdOrSuiteId, aesDecrypt L encrypt aesKey corpIdOrSuiteId = some r) ∧
      r.msgLen = msgLen ∧
      ((pkcs7Unpad deciphered).length < 20 + msgLen →
        r.msg = utf8Decode ((pkcs7Unpad deciphered).drop 20) ∧ r.receiveId = []) := by
  refine ⟨⟨slice (pkcs7Unpad deciphered) 0 16, msgLen,
    utf8Decode (slice (pkcs7Unpad deciphered) 20 (20 + msgLen)),
    utf8Decode ((pkcs7Unpad deciphered).drop (20 + msgLen))⟩, ?_, rfl, ?_⟩
  · intro corpIdOrSuiteId
    unfold aesDecrypt
    simp only [hd, hlen, ite_self]
  · intro hshort
    constructor
    · simp only [slice]
      rw [List.take_of_length_le (by simp only [List.length_drop]; omega)]
    · simp only
      rw [List.drop_of_length_le (by omega)]
      rfl

theorem aesDecrypt_unchecked_witness :
    ∃ r, (∀ corpIdOrSuiteId, aesDecrypt .plain
        (List.replicate 16 0 ++ [0, 0, 0, 5] ++ js "ab" ++ List.replicate 10 10) (js "k")
        corpIdOrSuiteId = some r) ∧
      r.msgLen = 5 ∧
      ((pkcs7Unpad (List.replicate 16 0 ++ [0, 0, 0, 5] ++ js "ab" ++ List.replicate 10 10)).length
          < 20 + 5 →
        r.msg = utf8Decode ((pkcs7Unpad
          (List.replicate 16 0 ++ [0, 0, 0, 5] ++ js "ab" ++ List.replicate 10 10)).drop 20) ∧
        r.receiveId = []) :=
  aesDecrypt_unchecked .plain
    (List.replicate 16 0 ++ [0, 0, 0, 5] ++ js "ab" ++ List.replicate 10 10) (js "k")
    (List.replicate 16 0 ++ [0, 0, 0, 5] ++ js "ab" ++ List.replicate 10 10) 5 rfl (by decide)
/-! ## Signatures -/

theorem hashInput_sort_perm (arr : List JSString) :
    (hashInput (sortStrings arr)).Perm (hashInput arr) :=
  List.Perm.flatMap_right utf8Encode (List.perm_insertionSort _ arr)

theorem signedBytes_length (token timestamp nonce encrypt : JSString) :
    (signedBytes token timestamp nonce encrypt).length =
      byteLength token + byteLength timestamp + byteLength nonce + byteLength encrypt := by
  unfold signedBytes
  rw [(hashInput_sort_perm _).length_eq]
  simp [hashInput, byteLength, Nat.add_assoc]

theorem genSignature_eq (sha1Hex : Bytes → JSString) (token timestamp nonce encrypt : JSString) :
    genSignature sha1Hex token timestamp nonce encrypt =
      sha1Hex (signedBytes token timestamp nonce encrypt) := rfl

/-- C7 (counterexample): the nonce `"12"` replaced by `"21"`, with token `"tok"`, timestamp
`"121"` and body `"zz"` unchanged, leaves the bytes hashed unchanged (`"12121tokzz"` both times), so
the old signature still verifies, whatever the hash function. -/
theorem verifySignature_accepts_replaced_nonce :
    js "21" ≠ js "12" ∧
      signedBytes (js "tok") (js "121") (js "21") (js "zz") =
        signedBytes (js "tok") (js "121") (js "12") (js "zz") ∧
      signedBytes (js "tok") (js "121") (js "12") (js "zz") = utf8Encode (js "12121tokzz") ∧
      ¬ (∀ sha1Hex : Bytes → JSString, Function.Injective sha1Hex →
          ∀ token timestamp nonce body : JSString,
            verifySignature sha1Hex token timestamp nonce body
              (genSignature sha1Hex token timestamp nonce body) = true ∧
            (∀ x, x ≠ token → verifySignature sha1Hex x timestamp nonce body
              (genSignature sha1Hex token timestamp nonce body) = false) ∧
            (∀ x, x ≠ timestamp → verifySignature sha1Hex token x nonce body
              (genSignature sha1Hex token timestamp nonce body) = false) ∧
            (∀ x, x ≠ nonce → verifySignature sha1Hex token timestamp x body
              (genSignature sha1Hex token timestamp nonce body) = false) ∧
            (∀ x, x ≠ body → verifySignature sha1Hex token timestamp nonce x
              (genSignature sha1Hex token timestamp nonce body) = false)) := by
  refine ⟨by decide, by decide, by decide, ?_⟩
  intro h
  have h4 := (h (fun b => b) (fun _ _ e => e) (js "tok") (js "121") (js "12") (js "zz")).2.2.2.1
    (js "21") (by decide)
  have e : signedBytes (js "tok") (js "121") (js "21") (js "zz") =
      signedBytes (js "tok") (js "121") (js "12") (js "zz") := by decide
  simp [verifySignature, genSignature_eq, e] at h4

/-- C7 (amended): the signature of four fields verifies against those four fields; and, SHA-1
taken as collision-free, verification of other fields against it is false exactly when the bytes
hashed (the UTF-8 bytes of the four fields in sorted order, one after the other) differ, which is
the case whenever the total UTF-8 length of the fields differs. -/
theorem verifySignature_genSignature (sha1Hex : Bytes → JSString)
    (hinj : Function.Injective sha1Hex) (token timestamp nonce body : JSString) :
    verifySignature sha1Hex token timestamp nonce body
        (genSignature sha1Hex token timestamp nonce body) = true ∧
      ∀ token' timestamp' nonce' body' : JSString,
        (verifySignature sha1Hex token' timestamp' nonce' body'
            (genSignature sha1Hex token timestamp nonce body) = false ↔
          signedBytes token' timestamp' nonce' body' ≠ signedBytes token timestamp nonce body) ∧
        (byteLength token' + byteLength timestamp' + byteLength nonce' + byteLength body' ≠
            byteLength token + byteLength timestamp + byteLength nonce + byteLength body →
          verifySignature sha1Hex token' timestamp' nonce' body'
            (genSignature sha1Hex token timestamp nonce body) = false) := by
  have key : ∀ token' timestamp' nonce' body' : JSString,
      verifySignature sha1Hex token' timestamp' nonce' body'
          (genSignature sha1Hex token timestamp nonce body) = false ↔
        signedBytes token' timestamp' nonce' body' ≠ signedBytes token timestamp nonce body := by
    intro token' timestamp' nonce' body'
    simp only [verifySignature, genSignature_eq, decide_eq_false_iff_not]
    exact not_congr hinj.eq_iff
  refine ⟨by simp [verifySignature], fun token' timestamp' nonce' body' => ⟨key _ _ _ _, ?_⟩⟩
  intro hlen
  rw [key]
  intro e
  apply hlen
  rw [← signedBytes_length, ← signedBytes_length, e]

theorem verifySignature_genSignature_witness :
    verifySignature (fun b => b) (js "tok") (js "121") (js "12") (js "zz")
        (genSignature (fun b => b) (js "tok") (js "121") (js "12") (js "zz")) = true ∧
      ∀ token' timestamp' nonce' body' : JSString,
        (verifySignature (fun b => b) token' timestamp' nonce' body'
            (genSignature (fun b => b) (js "tok") (js "121") (js "12") (js "zz")) = false ↔
          signedBytes token' timestamp' nonce' body' ≠
            signedBytes (js "tok") (js "121") (js "12") (js "zz")) ∧
        (byteLength token' + byteLength timestamp' + byteLength nonce' + byteLength body' ≠
            byteLength (js "tok") + byteLength (js "121") + byteLength (js "12") +
              byteLength (js "zz") →
          verifySignature (fun b => b) token' timestamp' nonce' body'
            (genSignature (fun b => b) (js "tok") (js "121") (js "12") (js "zz")) = false) :=
  verifySignature_genSignature (fun b => b) (fun _ _ e => e) (js "tok") (js "121") (js "12")
    (js "zz")
theorem codePoints_of_bmp : ∀ s : JSString, IsBmpString s → codePoints s = s := by
  intro s
  induction s using codePoints.induct with
  | case1 => intro _; rfl
  | case2 u => intro _; rfl
  | case3 u v rest h _ =>
    intro hs
    have h1 := (hs u (List.mem_cons_self u _)).2
    simp only [Bool.and_eq_true] at h
    rw [isSurrogate_of_high h.1] at h1
    exact absurd h1 (by simp)
  | case4 u v rest h ih =>
    intro hs
    rw [codePoints.eq_3, if_neg h, ih fun w hw => hs w (List.mem_cons_of_mem u hw)]

theorem wellFormed_of_bmp {s : JSString} (h : IsBmpString s) : WellFormed s := by
  refine ⟨fun u hu => (h u hu).1, ?_⟩
  unfold isWellFormed
  rw [codePoints_of_bmp s h, List.all_eq_true]
  intro u hu
  simp [(h u hu).2]

theorem utf8Encode_append_of_bmp {s t : JSString} (hs : IsBmpString s) (ht : IsBmpString t) :
    utf8Encode (s ++ t) = utf8Encode s ++ utf8Encode t := by
  have hst : IsBmpString (s ++ t) := by
    intro u hu
    rcases List.mem_append.1 hu with h | h
    · exact hs u h
    · exact ht u h
  unfold utf8Encode
  rw [codePoints_of_bmp _ hst, codePoints_of_bmp _ hs, codePoints_of_bmp _ ht, List.flatMap_append]

theorem hashInput_of_bmp : ∀ strs : List JSString, (∀ s ∈ strs, IsBmpString s) →
    IsBmpString strs.flatten ∧ hashInput strs = utf8Encode strs.flatten := by
  intro strs
  induction strs with
  | nil => intro _; exact ⟨fun u hu => by simp at hu, rfl⟩
  | cons s strs ih =>
    intro h
    have hs := h s (List.mem_cons_self s strs)
    obtain ⟨ih1, ih2⟩ := ih fun t ht => h t (List.mem_cons_of_mem s ht)
    refine ⟨?_, ?_⟩
    · intro u hu
      rw [List.flatten_cons] at hu
      rcases List.mem_append.1 hu with h1 | h1
      · exact hs u h1
      · exact ih1 u h1
    · rw [List.flatten_cons, utf8Encode_append_of_bmp hs ih1, ← ih2]
      rfl

/-- On strings without surrogates, equal bytes hashed mean equal sorted concatenations. -/
theorem sorted_flatten_of_signedBytes_eq {a b c d a' b' c' d' : JSString}
    (h : ∀ s ∈ [a, b, c, d], IsBmpString s) (h' : ∀ s ∈ [a', b', c', d'], IsBmpString s)
    (e : signedBytes a' b' c' d' = signedBytes a b c d) :
    (sortStrings [a', b', c', d']).flatten = (sortStrings [a, b, c, d]).flatten := by
  have hs : ∀ s ∈ sortStrings [a, b, c, d], IsBmpString s := fun s hs =>
    h s ((List.perm_insertionSort _ _).mem_iff.1 hs)
  have hs' : ∀ s ∈ sortStrings [a', b', c', d'], IsBmpString s := fun s hs =>
    h' s ((List.perm_insertionSort _ _).mem_iff.1 hs)
  obtain ⟨w, hw⟩ := hashInput_of_bmp _ hs
  obtain ⟨w', hw'⟩ := hashInput_of_bmp _ hs'
  unfold signedBytes at e
  rw [hw, hw'] at e
  have := congrArg utf8Decode e
  rwa [utf8Decode_utf8Encode (wellFormed_of_bmp w), utf8Decode_utf8Encode (wellFormed_of_bmp w')]
    at this

theorem sorted_flatten_perm (a b c d : JSString) :
    ((sortStrings [a, b, c, d]).flatten).Perm (a ++ (b ++ (c ++ d))) := by
  have := (List.perm_insertionSort (fun x y => strLe x y = true) [a, b, c, d]).flatten
  simpa [sortStrings] using this

/-- A single edit changes the length of a string or the number of occurrences of a character. -/
theorem singleEdit_length_or_count {f g : JSString} (h : SingleEdit f g) :
    f.length ≠ g.length ∨ ∃ ch, f.count ch ≠ g.count ch := by
  cases h with
  | subst pre post c d hcd =>
    right
    refine ⟨c, ?_⟩
    simp only [List.count_append, List.count_cons, beq_self_eq_true, if_true]
    have : (d == c) = false := by simpa using Ne.symm hcd
    simp [this]
  | insert pre post c => left; simp
  | delete pre post c => left; simp

theorem not_perm_of_singleEdit {f g : JSString} (h : SingleEdit f g) (x y : JSString) :
    ¬ (x ++ (g ++ y)).Perm (x ++ (f ++ y)) := by
  intro hp
  rcases singleEdit_length_or_count h with hl | ⟨ch, hc⟩
  · have := hp.length_eq
    simp only [List.length_append] at this
    omega
  · have := hp.count_eq ch
    simp only [List.count_append] at this
    omega
theorem signatureFlips_of_not_perm {a b c d a' b' c' d' : JSString}
    (h : ∀ s ∈ [a, b, c, d], IsBmpString s) (h' : ∀ s ∈ [a', b', c', d'], IsBmpString s)
    (hp : ¬ (a' ++ (b' ++ (c' ++ d'))).Perm (a ++ (b ++ (c ++ d)))) :
    SignatureFlips a b c d a' b' c' d' := by
  have hne : signedBytes a' b' c' d' ≠ signedBytes a b c d := by
    intro e
    apply hp
    have e2 := sorted_flatten_of_signedBytes_eq h h' e
    exact ((sorted_flatten_perm a' b' c' d').symm.trans (e2 ▸ List.Perm.refl _)).trans
      (sorted_flatten_perm a b c d)
  refine ⟨hne, fun sha1Hex hinj e => hne ?_⟩
  rw [genSignature_eq, genSignature_eq] at e
  exact hinj e

/-- C8: for all fields without surrogate code units (every code unit is one character; byte
strings are of this kind), a change of a single character of any one field (one character replaced
by a different one, inserted or deleted) changes the bytes that `genSignature` feeds to SHA-1, the
concatenation of the four fields in sorted order; so the signature changes under every
collision-free hash. -/
theorem genSignature_single_edit (token timestamp nonce body f : JSString)
    (ht : IsBmpString token) (hts : IsBmpString timestamp) (hn : IsBmpString nonce)
    (hb : IsBmpString body) (hf : IsBmpString f) :
    (SingleEdit token f → SignatureFlips token timestamp nonce body f timestamp nonce body) ∧
      (SingleEdit timestamp f → SignatureFlips token timestamp nonce body token f nonce body) ∧
      (SingleEdit nonce f → SignatureFlips token timestamp nonce body token timestamp f body) ∧
      (SingleEdit body f → SignatureFlips token timestamp nonce body token timestamp nonce f) := by
  have h0 : ∀ s ∈ [token, timestamp, nonce, body], IsBmpString s := by
    intro s hs
    simp only [List.mem_cons, List.mem_singleton, List.not_mem_nil, or_false] at hs
    rcases hs with rfl | rfl | rfl | rfl <;> assumption
  refine ⟨fun he => ?_, fun he => ?_, fun he => ?_, fun he => ?_⟩
  · apply signatureFlips_of_not_perm h0
    · intro s hs
      simp only [List.mem_cons, List.mem_singleton, List.not_mem_nil, or_false] at hs
      rcases hs with rfl | rfl | rfl | rfl <;> assumption
    · simpa using not_perm_of_singleEdit he [] (timestamp ++ (nonce ++ body))
  · apply signatureFlips_of_not_perm h0
    · intro s hs
      simp only [List.mem_cons, List.mem_singleton, List.not_mem_nil, or_false] at hs
      rcases hs with rfl | rfl | rfl | rfl <;> assumption
    · exact not_perm_of_singleEdit he token (nonce ++ body)
  · apply signatureFlips_of_not_perm h0
    · intro s hs
      simp only [List.mem_cons, List.mem_singleton, List.not_mem_nil, or_false] at hs
      rcases hs with rfl | rfl | rfl | rfl <;> assumption
    · simpa [List.append_assoc] using not_perm_of_singleEdit he (token ++ timestamp) body
  · apply signatureFlips_of_not_perm h0
    · intro s hs
      simp only [List.mem_cons, List.mem_singleton, List.not_mem_nil, or_false] at hs
      rcases hs with rfl | rfl | rfl | rfl <;> assumption
    · simpa [List.append_assoc] using
        not_perm_of_singleEdit he (token ++ (timestamp ++ nonce)) []

theorem genSignature_single_edit_witness :
    SingleEdit (js "12") (js "13") ∧
      SignatureFlips (js "12") (js "121") (js "n") (js "zz") (js "13") (js "121") (js "n")
        (js "zz") :=
  ⟨SingleEdit.subst [0x31] [] 0x32 0x33 (by decide),
    (genSignature_single_edit (js "12") (js "121") (js "n") (js "zz") (js "13") (by decide)
      (by decide) (by decide) (by decide) (by decide)).1
      (SingleEdit.subst [0x31] [] 0x32 0x33 (by decide))⟩
/-! ### The order of `sort()` is a total order, so the sorted array is unique -/

theorem strLe_total : ∀ a b : JSString, strLe a b = true ∨ strLe b a = true := by
  intro a
  induction a with
  | nil => intro b; left; cases b <;> rfl
  | cons x xs ih =>
    intro b
    cases b with
    | nil => right; rfl
    | cons y ys =>
      simp only [strLe]
      rcases Nat.lt_trichotomy x y with h | h | h
      · left; simp [h]
      · subst h; simpa using ih ys
      · right; simp [h]

theorem strLe_trans : ∀ a b c : JSString, strLe a b = true → strLe b c = true →
    strLe a c = true := by
  intro a
  induction a with
  | nil => intro b c _ _; cases c <;> rfl
  | cons x xs ih =>
    intro b c hab hbc
    cases b with
    | nil => simp [strLe] at hab
    | cons y ys =>
      cases c with
      | nil => simp [strLe] at hbc
      | cons z zs =>
        simp only [strLe] at hab hbc ⊢
        split_ifs at hab with h1 h2
        · split_ifs at hbc with h3 h4
          · simp [show x < z by omega]
          · have : y = z := by omega
            subst this; simp [h1]
        · split_ifs at hbc with h3 h4
          · have : x = y := by omega
            subst this; simp [h3]
          · have hxy : x = y := by omega
            have hyz : y = z := by omega
            subst hxy hyz
            simp only [lt_self_iff_false, if_false]
            exact ih ys zs hab hbc

theorem strLe_antisymm : ∀ a b : JSString, strLe a b = true → strLe b a = true → a = b := by
  intro a
  induction a with
  | nil => intro b _ hba; cases b with
    | nil => rfl
    | cons y ys => simp [strLe] at hba
  | cons x xs ih =>
    intro b hab hba
    cases b with
    | nil => simp [strLe] at hab
    | cons y ys =>
      simp only [strLe] at hab hba
      rcases Nat.lt_trichotomy x y with h | h | h
      · have h2 : ¬ y < x := by omega
        simp [h, h2] at hba
      · subst h
        simp only [lt_self_iff_false, if_false] at hab hba
        rw [ih ys hab hba]
      · have h2 : ¬ x < y := by omega
        simp [h, h2] at hab

/-- The array `arr.sort()` is the one sorted rearrangement of `arr`: whatever algorithm the engine
runs, it returns `sortStrings arr`. -/
theorem sortStrings_unique (arr l : List JSString) (hp : l.Perm arr)
    (hs : l.Sorted fun a b => strLe a b = true) : l = sortStrings arr := by
  haveI : IsTotal JSString (fun a b => strLe a b = true) := ⟨strLe_total⟩
  haveI : IsTrans JSString (fun a b => strLe a b = true) := ⟨strLe_trans⟩
  haveI : IsAntisymm JSString (fun a b => strLe a b = true) := ⟨strLe_antisymm⟩
  exact List.eq_of_perm_of_sorted (hp.trans (List.perm_insertionSort _ arr).symm) hs
    (List.sorted_insertionSort _ arr)
/-! ## Diagram blocks -/

theorem arrayFromSet_spec : ∀ (xs seen : List JSString), seen.Nodup →
    (arrayFromSet seen xs).Nodup ∧ ∀ b, b ∈ arrayFromSet seen xs ↔ b ∈ seen ∨ b ∈ xs := by
  intro xs
  induction xs with
  | nil => intro seen h; simpa [arrayFromSet] using h
  | cons x xs ih =>
    intro seen h
    unfold arrayFromSet
    split_ifs with hx
    · obtain ⟨h1, h2⟩ := ih seen h
      refine ⟨h1, fun b => ?_⟩
      rw [h2, List.mem_cons]
      constructor
      · rintro (hb | hb)
        · exact Or.inl hb
        · exact Or.inr (Or.inr hb)
      · rintro (hb | hb | hb)
        · exact Or.inl hb
        · exact Or.inl (hb ▸ hx)
        · exact Or.inr hb
    · have hn : (seen ++ [x]).Nodup := by
        rw [List.nodup_append]
        refine ⟨h, List.nodup_singleton x, ?_⟩
        intro a ha hb
        rw [List.mem_singleton] at hb
        exact hx (hb ▸ ha)
      obtain ⟨h1, h2⟩ := ih (seen ++ [x]) hn
      refine ⟨h1, fun b => ?_⟩
      rw [h2, List.mem_append, List.mem_singleton, List.mem_cons, or_assoc]

/-- C13: for every text and every raw content, `extractMermaidBlocks(text, rawHtml)` has no two
equal strings, and its elements are exactly the blocks of `extractMermaidBlocksFromText(text)`
and those of `extractMermaidBlocksFromHtml(rawHtml)`. With the fenced block `graph TD;A-->B` in
the text and the same code in a `<code class="language-mermaid">` element of the raw content
(written with `>` or with `&gt;`), the result is exactly `["graph TD;A-->B"]`. -/
theorem extractMermaidBlocks_union (text rawHtml : JSString) :
    (extractMermaidBlocks text rawHtml).Nodup ∧
      (∀ b, b ∈ extractMermaidBlocks text rawHtml ↔
        b ∈ extractMermaidBlocksFromText text ∨ b ∈ extractMermaidBlocksFromHtml rawHtml) ∧
      extractMermaidBlocks (js "```mermaid\ngraph TD;A-->B\n```")
          (js "<pre><code class=\"language-mermaid\">graph TD;A-->B</code></pre>") =
        [js "graph TD;A-->B"] ∧
      extractMermaidBlocks (js "Here:\n```mermaid\ngraph TD;A-->B\n```\n")
          (js "<p>Here:</p><code class=\"language-mermaid\">graph TD;A--&gt;B\n</code>") =
        [js "graph TD;A-->B"] := by
  obtain ⟨h1, h2⟩ := arrayFromSet_spec
    (extractMermaidBlocksFromText text ++ extractMermaidBlocksFromHtml rawHtml) [] List.nodup_nil
  refine ⟨h1, fun b => ?_, by decide, by decide⟩
  unfold extractMermaidBlocks
  rw [h2, List.mem_append]
  simp

/-! ## `looksLikeMermaid` -/

/-- C14 (failing input): `"graph TD"` and `"pie title Pets"` begin with a keyword and hold no fence
and no arrow; `looksLikeMermaid` returns `false` for both, and `onChunk` queues `"graph TD"`. The
keyword pattern asks for a backspace after the keyword: `"graph"` followed by U+0008 is flagged. -/
theorem looksLikeMermaid_misses_keywords :
    looksLikeMermaid (js "graph TD") = false ∧
      looksLikeMermaid (js "pie title Pets") = false ∧
      onChunk [] (js "graph TD") = [js "graph TD"] ∧
      looksLikeMermaid (js "graph" ++ [0x08] ++ js " TD") = true := by
  decide
/-! ## `sanitizeModuleText` -/

theorem removeTags_pending_of_no_gt : ∀ (l pending : JSString), 0x3E ∉ l →
    removeTags l (some pending) = pending ++ l := by
  intro l
  induction l with
  | nil => intro pending _; simp [removeTags]
  | cons c rest ih =>
    intro pending h
    simp only [List.mem_cons, not_or] at h
    rw [removeTags, if_neg (Ne.symm h.1), ih _ h.2]
    simp

theorem removeTags_of_noToken : ∀ l : JSString, NoToken l → removeTags l none = l := by
  intro l
  induction l with
  | nil => intro _; rfl
  | cons c rest ih =>
    intro h
    rw [NoToken, List.pairwise_cons] at h
    rw [removeTags]
    split_ifs with hc
    · subst hc
      have hgt : 0x3E ∉ rest := fun hm => h.1 _ hm ⟨rfl, rfl⟩
      rw [removeTags_pending_of_no_gt rest _ hgt]
      rfl
    · rw [ih h.2]

theorem noToken_of_no_gt {l : JSString} (h : 0x3E ∉ l) : NoToken l := by
  unfold NoToken
  rw [List.pairwise_iff_forall_sublist]
  intro a b hs hab
  have : b ∈ l := hs.subset (by simp)
  rw [hab.2] at this
  exact h this

theorem removeTags_noToken : ∀ l : JSString,
    NoToken (removeTags l none) ∧
      ∀ pending, 0x3E ∉ pending → NoToken (removeTags l (some pending)) := by
  intro l
  induction l with
  | nil =>
    refine ⟨by simp [removeTags, NoToken], fun pending h => ?_⟩
    rw [removeTags]
    exact noToken_of_no_gt h
  | cons c rest ih =>
    refine ⟨?_, fun pending h => ?_⟩
    · rw [removeTags]
      split_ifs with hc
      · exact ih.2 [c] (by simp [hc])
      · rw [NoToken, List.pairwise_cons]
        exact ⟨fun b _ hb => hc hb.1, ih.1⟩
    · rw [removeTags]
      split_ifs with hc
      · exact ih.1
      · exact ih.2 _ (by simp [h, Ne.symm hc])
theorem trim_eq_rdropWhile (l : JSString) :
    trim l = List.rdropWhile isWhitespace (l.dropWhile isWhitespace) := rfl

theorem trim_within (l : JSString) : trim l <:+: l := by
  rw [trim_eq_rdropWhile]
  have h1 : List.rdropWhile isWhitespace (l.dropWhile isWhitespace) <+: l.dropWhile isWhitespace :=
    List.rdropWhile_prefix isWhitespace _
  exact h1.isInfix.trans (List.dropWhile_suffix isWhitespace).isInfix

theorem chain_of_within {R : Nat → Nat → Prop} {l t : JSString} (h : l.Chain' R)
    (ht : t <:+: l) : t.Chain' R := by
  obtain ⟨s, u, e⟩ := ht
  rw [← e] at h
  exact h.left_of_append.right_of_append

theorem trim_trim (l : JSString) : trim (trim l) = trim l := by
  have h1 : (trim l).dropWhile isWhitespace = trim l := by
    have hpre : trim l <+: l.dropWhile isWhitespace := by
      rw [trim_eq_rdropWhile]; exact List.rdropWhile_prefix isWhitespace _
    obtain ⟨s, hs⟩ := hpre
    cases ht : trim l with
    | nil => rfl
    | cons a t =>
      rw [ht] at hs
      have hne : l.dropWhile isWhitespace ≠ [] := by rw [← hs]; simp
      have hnot := List.head_dropWhile_not isWhitespace l hne
      have ha : isWhitespace a = false := by
        have e : (l.dropWhile isWhitespace).head hne = a := by
          simp only [← hs, List.cons_append, List.head_cons]
        rw [← e]; exact hnot
      simp [List.dropWhile, ha]
  conv_lhs => rw [trim_eq_rdropWhile, h1, trim_eq_rdropWhile]
  rw [List.rdropWhile_idempotent, ← trim_eq_rdropWhile]

theorem collapseBlanks_collapsed : ∀ (l : JSString) (inRun : Bool),
    0x09 ∉ collapseBlanks l inRun ∧
      (collapseBlanks l inRun).Chain' (fun a b => ¬ (a = 0x20 ∧ b = 0x20)) ∧
      (inRun = true → (collapseBlanks l inRun).head? ≠ some 0x20) := by
  intro l
  induction l with
  | nil => intro inRun; simp [collapseBlanks]
  | cons c rest ih =>
    intro inRun
    rw [collapseBlanks]
    split_ifs with hb hr
    · subst hr; exact ih true
    · obtain ⟨h1, h2, h3⟩ := ih true
      refine ⟨by simp [h1], ?_, fun h => absurd h hr⟩
      rw [List.chain'_cons']
      refine ⟨fun y hy hxy => ?_, h2⟩
      rw [Option.mem_def] at hy
      exact h3 rfl (hxy.2 ▸ hy)
    · obtain ⟨h1, h2, _⟩ := ih false
      have hc1 : c ≠ 0x20 := fun h => hb (Or.inl h)
      have hc2 : c ≠ 0x09 := fun h => hb (Or.inr h)
      refine ⟨by simp [h1, Ne.symm hc2], ?_, fun _ => by simp [hc1]⟩
      rw [List.chain'_cons']
      exact ⟨fun y _ hxy => hc1 hxy.1, h2⟩

theorem collapseBlanks_of_collapsed : ∀ (l : JSString) (inRun : Bool),
    Collapsed l → (inRun = true → l.head? ≠ some 0x20) → collapseBlanks l inRun = l := by
  intro l
  induction l with
  | nil => intro _ _ _; rfl
  | cons c rest ih =>
    intro inRun hc hh
    obtain ⟨htab, hchain⟩ := hc
    rw [List.chain'_cons'] at hchain
    have hc2 : c ≠ 0x09 := fun h => htab (by simp [h])
    have hrest : Collapsed rest := ⟨fun h => htab (List.mem_cons_of_mem c h), hchain.2⟩
    rw [collapseBlanks]
    by_cases hsp : c = 0x20
    · have hf : inRun = false := by
        cases inRun with
        | false => rfl
        | true => exact absurd (by simp [hsp]) (hh rfl)
      subst hsp
      rw [if_pos (Or.inl rfl), hf, if_neg (by simp)]
      rw [ih true hrest fun _ hy => hchain.1 0x20 (Option.mem_def.2 hy) ⟨rfl, rfl⟩]
    · rw [if_neg (by rintro (h | h); exact hsp h; exact hc2 h)]
      rw [ih false hrest fun h => absurd h (by simp)]
theorem mem_collapseBlanks : ∀ (l : JSString) (inRun : Bool) (b : Nat),
    b ∈ collapseBlanks l inRun → b ∈ l ∨ b = 0x20 := by
  intro l
  induction l with
  | nil => intro inRun b h; simp [collapseBlanks] at h
  | cons c rest ih =>
    intro inRun b h
    rw [collapseBlanks] at h
    split_ifs at h with hb hr
    · rcases ih _ _ h with h1 | h1
      · exact Or.inl (List.mem_cons_of_mem c h1)
      · exact Or.inr h1
    · rcases List.mem_cons.1 h with h1 | h1
      · exact Or.inr h1
      · rcases ih _ _ h1 with h2 | h2
        · exact Or.inl (List.mem_cons_of_mem c h2)
        · exact Or.inr h2
    · rcases List.mem_cons.1 h with h1 | h1
      · exact Or.inl (h1 ▸ List.mem_cons_self c rest)
      · rcases ih _ _ h1 with h2 | h2
        · exact Or.inl (List.mem_cons_of_mem c h2)
        · exact Or.inr h2

theorem collapseBlanks_noToken : ∀ (l : JSString) (inRun : Bool),
    NoToken l → NoToken (collapseBlanks l inRun) := by
  intro l
  induction l with
  | nil => intro inRun h; simpa [collapseBlanks] using h
  | cons c rest ih =>
    intro inRun h
    rw [NoToken, List.pairwise_cons] at h
    rw [collapseBlanks]
    split_ifs with hb hr
    · exact ih _ h.2
    · rw [NoToken, List.pairwise_cons]
      exact ⟨fun b _ hab => by simp at hab, ih _ h.2⟩
    · rw [NoToken, List.pairwise_cons]
      refine ⟨fun b hbm hab => ?_, ih _ h.2⟩
      rcases mem_collapseBlanks _ _ _ hbm with h1 | h1
      · exact h.1 b h1 hab
      · rw [h1] at hab; simp at hab

theorem normalizeNewlines_sublist : ∀ l : JSString, (normalizeNewlines l).Sublist l := by
  intro l
  induction l using normalizeNewlines.induct with
  | case1 => simp [normalizeNewlines]
  | case2 c => simp [normalizeNewlines]
  | case3 c d rest h ih =>
    rw [normalizeNewlines, if_pos h, h.2]
    exact (ih.cons₂ 0x0A).cons c
  | case4 c d rest h ih =>
    rw [normalizeNewlines, if_neg h]
    exact ih.cons₂ c

theorem normalizeNewlines_head : ∀ l : JSString,
    (normalizeNewlines l).head? = some 0x20 → l.head? = some 0x20 := by
  intro l
  cases l with
  | nil => simp [normalizeNewlines]
  | cons c rest =>
    cases rest with
    | nil => simp [normalizeNewlines]
    | cons d rest =>
      rw [normalizeNewlines]
      split_ifs with h
      · simp
      · simp

theorem normalizeNewlines_chain : ∀ l : JSString,
    l.Chain' (fun a b => ¬ (a = 0x20 ∧ b = 0x20)) →
      (normalizeNewlines l).Chain' (fun a b => ¬ (a = 0x20 ∧ b = 0x20)) := by
  intro l
  induction l using normalizeNewlines.induct with
  | case1 => intro _; simp [normalizeNewlines]
  | case2 c => intro _; simp [normalizeNewlines]
  | case3 c d rest h ih =>
    intro hc
    rw [normalizeNewlines, if_pos h, List.chain'_cons']
    exact ⟨fun y _ hxy => by simp at hxy, ih hc.tail.tail⟩
  | case4 c d rest h ih =>
    intro hc
    rw [normalizeNewlines, if_neg h, List.chain'_cons']
    rw [List.chain'_cons'] at hc
    refine ⟨fun y hy hxy => ?_, ih hc.2⟩
    have h1 := normalizeNewlines_head (d :: rest) (by rw [← hxy.2]; exact Option.mem_def.1 hy)
    exact hc.1 0x20 (Option.mem_def.2 h1) ⟨hxy.1, rfl⟩

theorem normalizeNewlines_length_lt : ∀ l : JSString, [0x0D, 0x0A] <:+: l →
    (normalizeNewlines l).length < l.length := by
  intro l
  induction l using normalizeNewlines.induct with
  | case1 => intro h; simp at h
  | case2 c =>
    intro h
    have := h.length_le
    simp at this
  | case3 c d rest h ih =>
    intro _
    rw [normalizeNewlines, if_pos h]
    have := (normalizeNewlines_sublist rest).length_le
    simp only [List.length_cons]
    omega
  | case4 c d rest h ih =>
    intro hin
    rw [normalizeNewlines, if_neg h]
    rw [List.infix_cons_iff] at hin
    rcases hin with hp | hp
    · exfalso
      obtain ⟨s, hs⟩ := hp
      simp only [List.cons_append, List.nil_append, List.cons.injEq] at hs
      exact h ⟨hs.1.symm, hs.2.1.symm⟩
    · have := ih hp
      simp only [List.length_cons] at this ⊢
      omega

theorem normalizeNewlines_of_no_crlf : ∀ l : JSString, ¬ [0x0D, 0x0A] <:+: l →
    normalizeNewlines l = l := by
  intro l
  induction l using normalizeNewlines.induct with
  | case1 => intro _; rfl
  | case2 c => intro _; rfl
  | case3 c d rest h ih =>
    intro hn
    exfalso
    apply hn
    rw [h.1, h.2]
    exact ⟨[], rest, rfl⟩
  | case4 c d rest h ih =>
    intro hn
    rw [normalizeNewlines, if_neg h, ih fun hin => hn (List.infix_cons hin)]
theorem mem_removeTags : ∀ (l : JSString) (b : Nat),
    (b ∈ removeTags l none → b ∈ l) ∧
      ∀ pending, b ∈ removeTags l (some pending) → b ∈ pending ∨ b ∈ l := by
  intro l
  induction l with
  | nil => intro b; simp [removeTags]
  | cons c rest ih =>
    intro b
    refine ⟨fun h => ?_, fun pending h => ?_⟩
    · rw [removeTags] at h
      split_ifs at h with hc
      · rcases (ih b).2 _ h with h1 | h1
        · simp only [List.mem_singleton] at h1
          exact h1 ▸ List.mem_cons_self c rest
        · exact List.mem_cons_of_mem c h1
      · rcases List.mem_cons.1 h with h1 | h1
        · exact h1 ▸ List.mem_cons_self c rest
        · exact List.mem_cons_of_mem c ((ih b).1 h1)
    · rw [removeTags] at h
      split_ifs at h with hc
      · exact Or.inr (List.mem_cons_of_mem c ((ih b).1 h))
      · rcases (ih b).2 _ h with h1 | h1
        · rcases List.mem_append.1 h1 with h2 | h2
          · exact Or.inl h2
          · simp only [List.mem_singleton] at h2
            exact Or.inr (h2 ▸ List.mem_cons_self c rest)
        · exact Or.inr (List.mem_cons_of_mem c h1)

theorem mem_sanitizeModuleText {raw : JSString} {b : Nat} (h : b ∈ sanitizeModuleText raw) :
    b ∈ raw ∨ b = 0x20 := by
  have h1 := (trim_within _).subset h
  have h2 := (normalizeNewlines_sublist _).subset h1
  rcases mem_collapseBlanks _ _ _ h2 with h3 | h3
  · exact Or.inl ((mem_removeTags raw b).1 h3)
  · exact Or.inr h3

/-- What `sanitizeModuleText` returns holds no `<...>` token, no tab and no two spaces in a row,
and has no white space at either end: a second run changes it only at a `\r\n`. -/
theorem sanitizeModuleText_again (raw : JSString) :
    sanitizeModuleText (sanitizeModuleText raw) =
      trim (normalizeNewlines (sanitizeModuleText raw)) := by
  have hsub : (sanitizeModuleText raw).Sublist (collapseBlanks (removeTags raw none) false) :=
    (trim_within _).sublist.trans (normalizeNewlines_sublist _)
  have hc := collapseBlanks_collapsed (removeTags raw none) false
  have hnt : NoToken (sanitizeModuleText raw) :=
    List.Pairwise.sublist hsub (collapseBlanks_noToken _ false (removeTags_noToken raw).1)
  have hcol : Collapsed (sanitizeModuleText raw) :=
    ⟨fun h => hc.1 (hsub.subset h), chain_of_within (normalizeNewlines_chain _ hc.2.1) (trim_within _)⟩
  conv_lhs => rw [sanitizeModuleText]
  rw [removeTags_of_noToken _ hnt, collapseBlanks_of_collapsed _ false hcol (by simp)]

/-- C11 (counterexample): `"a\r\r\nb"` is sanitized to `"a\r\nb"`, and that to `"a\nb"`. -/
theorem sanitizeModuleText_not_idempotent :
    sanitizeModuleText (js "a\r\r\nb") = js "a\r\nb" ∧
      sanitizeModuleText (sanitizeModuleText (js "a\r\r\nb")) = js "a\nb" ∧
      sanitizeModuleText (sanitizeModuleText (js "a\r\r\nb")) ≠
        sanitizeModuleText (js "a\r\r\nb") := by
  decide

/-- C11 (amended): a second run of `sanitizeModuleText` changes nothing exactly when the sanitized
text holds no `\r\n` (left over from a `\r` before a `\r\n`); so it changes nothing for every
`raw` without a carriage return. -/
theorem sanitizeModuleText_idempotent_iff (raw : JSString) :
    (sanitizeModuleText (sanitizeModuleText raw) = sanitizeModuleText raw ↔
        ¬ [0x0D, 0x0A] <:+: sanitizeModuleText raw) ∧
      (0x0D ∉ raw → sanitizeModuleText (sanitizeModuleText raw) = sanitizeModuleText raw) := by
  have key : ¬ [0x0D, 0x0A] <:+: sanitizeModuleText raw →
      sanitizeModuleText (sanitizeModuleText raw) = sanitizeModuleText raw := by
    intro h
    rw [sanitizeModuleText_again, normalizeNewlines_of_no_crlf _ h]
    conv_lhs => rw [sanitizeModuleText, trim_trim]
    rfl
  refine ⟨⟨fun h hin => ?_, key⟩, fun hcr => key fun hin => ?_⟩
  · have h1 := normalizeNewlines_length_lt _ hin
    have h2 := (trim_within (normalizeNewlines (sanitizeModuleText raw))).length_le
    have h3 := congrArg List.length h
    rw [sanitizeModuleText_again] at h3
    omega
  · have hm : (0x0D : Nat) ∈ sanitizeModuleText raw := hin.subset (by simp)
    rcases mem_sanitizeModuleText hm with h1 | h1
    · exact hcr h1
    · simp at h1
/-! ## The delivery queue -/

theorem sendWithRetry_spec (send : Nat → Bool) (k : Option Nat) (h : FailsBeforeSuccess send k) :
    sendWithRetry send maxRetries 0 = (expectedDelivered k, expectedCalls k) := by
  cases k with
  | none =>
    simp only [FailsBeforeSuccess] at h
    simp [sendWithRetry, maxRetries, h, expectedDelivered, expectedCalls]
  | some k =>
    obtain ⟨hf, hs⟩ := h
    rcases Nat.lt_or_ge k 3 with hk | hk
    · interval_cases k
      · simp [sendWithRetry, maxRetries, hs, expectedDelivered, expectedCalls]
      · have h0 := hf 0 (by omega)
        simp [sendWithRetry, maxRetries, hs, h0, expectedDelivered, expectedCalls]
      · have h0 := hf 0 (by omega)
        have h1 := hf 1 (by omega)
        simp [sendWithRetry, maxRetries, hs, h0, h1, expectedDelivered, expectedCalls]
    · have h0 := hf 0 (by omega)
      have h1 := hf 1 (by omega)
      have h2 := hf 2 (by omega)
      have e1 : expectedDelivered (some k) = false := by
        simp only [expectedDelivered, decide_eq_false_iff_not]; omega
      have e2 : expectedCalls (some k) = 3 := by
        simp only [expectedCalls]; omega
      rw [e1, e2]
      simp [sendWithRetry, maxRetries, h0, h1, h2]

theorem drainLoop_spec (send : Nat → Nat → Bool) :
    ∀ (queue : List JSString) (ks : List (Option Nat)) (served : Nat) (st : Delivery),
      ks.length = queue.length →
      (∀ j k, ks[j]? = some k → FailsBeforeSuccess (send (served + j)) k) →
      drainLoop send queue served st =
        { messageQueue := []
          isProcessingQueue := st.isProcessingQueue
          sent := st.sent ++ (queue.zip ks).flatMap fun p => List.replicate (expectedCalls p.2) p.1
          delivered := st.delivered ++
            ((queue.zip ks).filter fun p => expectedDelivered p.2).map Prod.fst } := by
  intro queue
  induction queue with
  | nil =>
    intro ks served st _ _
    simp [drainLoop]
  | cons message rest ih =>
    intro ks served st hlen hks
    cases ks with
    | nil => simp at hlen
    | cons k ks =>
      have hk := hks 0 k (by simp)
      rw [Nat.add_zero] at hk
      rw [drainLoop, sendWithRetry_spec _ k hk]
      rw [ih ks (served + 1) _ (by simpa using hlen) fun j k2 hj => by
        have := hks (j + 1) k2 (by simpa using hj)
        rwa [show served + (j + 1) = served + 1 + j by omega] at this]
      cases hd : expectedDelivered k <;>
        simp [hd, List.zip_cons_cons, List.filter_cons]
/-- C12: with `maxRetries = 3`, for every queue and every send capability that fails `k` times
for an entry before it succeeds (`ks` gives `k` entry by entry, `none` for a capability that never
succeeds), `processMessageQueue` calls send for the entries in queue order, `min (k + 1) 3` times
for an entry, delivers exactly the entries with `k < 3`, in their order, and ends with an empty
queue and `isProcessingQueue = false`. When every entry fails fewer than 3 times all entries are
delivered in order; when send always fails every entry is sent 3 times and none is delivered. -/
theorem processMessageQueue_drains (send : Nat → Nat → Bool) (queue : List JSString)
    (ks : List (Option Nat)) (hlen : ks.length = queue.length)
    (hks : ∀ j k, ks[j]? = some k → FailsBeforeSuccess (send j) k) :
    (processMessageQueue send ⟨queue, false, [], []⟩).messageQueue = [] ∧
      (processMessageQueue send ⟨queue, false, [], []⟩).isProcessingQueue = false ∧
      (processMessageQueue send ⟨queue, false, [], []⟩).sent =
        (queue.zip ks).flatMap (fun p => List.replicate (expectedCalls p.2) p.1) ∧
      (processMessageQueue send ⟨queue, false, [], []⟩).delivered =
        ((queue.zip ks).filter fun p => expectedDelivered p.2).map Prod.fst ∧
      ((∀ k ∈ ks, ∃ n, k = some n ∧ n < 3) →
        (processMessageQueue send ⟨queue, false, [], []⟩).delivered = queue) ∧
      ((∀ k ∈ ks, k = none) →
        (processMessageQueue send ⟨queue, false, [], []⟩).delivered = [] ∧
          (processMessageQueue send ⟨queue, false, [], []⟩).sent =
            queue.flatMap fun m => List.replicate 3 m) := by
  have hrun : processMessageQueue send ⟨queue, false, [], []⟩ =
      { messageQueue := []
        isProcessingQueue := false
        sent := (queue.zip ks).flatMap fun p => List.replicate (expectedCalls p.2) p.1
        delivered := ((queue.zip ks).filter fun p => expectedDelivered p.2).map Prod.fst } := by
    unfold processMessageQueue
    by_cases hq : queue = []
    · subst hq
      simp
    · rw [if_neg (by simp [hq])]
      rw [drainLoop_spec send queue ks 0 _ hlen fun j k hj => by
        rw [Nat.zero_add]; exact hks j k hj]
      simp
  rw [hrun]
  refine ⟨rfl, rfl, rfl, rfl, fun hall => ?_, fun hall => ⟨?_, ?_⟩⟩
  · simp only
    rw [List.filter_eq_self.2, List.map_fst_zip _ _ (by omega)]
    intro p hp
    obtain ⟨n, hn, hlt⟩ := hall p.2 (List.of_mem_zip hp).2
    simp [hn, expectedDelivered, hlt]
  · simp only
    rw [List.filter_eq_nil_iff.2, List.map_nil]
    intro p hp
    simp [hall p.2 (List.of_mem_zip hp).2, expectedDelivered]
  · simp only
    have e : ∀ p ∈ queue.zip ks, List.replicate (expectedCalls p.2) p.1 =
        (fun m => List.replicate 3 m) p.1 := by
      intro p hp
      simp [hall p.2 (List.of_mem_zip hp).2, expectedCalls]
    rw [List.flatMap_congr e]
    have e2 : (queue.zip ks).flatMap (fun p => (fun m => List.replicate 3 m) p.1) =
        ((queue.zip ks).map Prod.fst).flatMap fun m => List.replicate 3 m := by
      rw [List.flatMap_map]
    rw [e2, List.map_fst_zip _ _ (by omega)]

theorem processMessageQueue_drains_witness :
    (processMessageQueue (fun i a => decide (i = 0) || (decide (i = 1) && decide (1 ≤ a)))
        ⟨[js "a", js "b", js "c"], false, [], []⟩).sent =
          [js "a", js "b", js "b", js "c", js "c", js "c"] ∧
      (processMessageQueue (fun i a => decide (i = 0) || (decide (i = 1) && decide (1 ≤ a)))
        ⟨[js "a", js "b", js "c"], false, [], []⟩).delivered = [js "a", js "b"] :=
  have h := processMessageQueue_drains
    (fun i a => decide (i = 0) || (decide (i = 1) && decide (1 ≤ a)))
    [js "a", js "b", js "c"] [some 0, some 1, none] rfl
    (fun j k hj => by
      match j, hj with
      | 0, hj =>
        simp only [List.getElem?_cons_zero, Option.some.injEq] at hj
        subst hj; exact ⟨fun a ha => absurd ha (by omega), by decide⟩
      | 1, hj =>
        simp only [List.getElem?_cons_succ, List.getElem?_cons_zero, Option.some.injEq] at hj
        subst hj
        refine ⟨fun a ha => ?_, by decide⟩
        have : a = 0 := by omega
        subst this; decide
      | 2, hj =>
        simp only [List.getElem?_cons_succ, List.getElem?_cons_zero, Option.some.injEq] at hj
        subst hj
        intro a; simp
      | n + 3, hj => simp at hj)
  ⟨h.2.2.1, h.2.2.2.1⟩
/-! ## The failure path -/

/-- C15 (counterexample): when the request fails on both attempts, `sendTextToUser` is called
twice, with the notice of `onError` and then with the echo of the `catch`. -/
theorem backgroundTask_two_notices_on_request_failure :
    backgroundTask (fun _ => none) (js "hi") = [errorNotice, echoNotice (js "hi")] ∧
      (backgroundTask (fun _ => none) (js "hi")).length = 2 := by
  decide

/-- C15 (amended): whenever the generation fails (the request fails on both attempts, or the
stream of a response errors or times out), `sendTextToUser` is called exactly twice on the failure
path: by `onError` with the notice of an error, then by the `catch` of the background task with the
echo of the message. When the stream ends normally the failure path sends nothing. -/
theorem backgroundTask_notices (post : Nat → Option StreamEnd) (content : JSString) :
    (UpstreamFails post ↔
        (post 1 = none ∧ post 2 = none) ∨ post 1 = some .errored ∨ post 1 = some .timedOut ∨
          (post 1 = none ∧ (post 2 = some .errored ∨ post 2 = some .timedOut))) ∧
      (UpstreamFails post → backgroundTask post content = [errorNotice, echoNotice content]) ∧
      (¬ UpstreamFails post → backgroundTask post content = []) := by
  unfold UpstreamFails backgroundTask chatStream
  simp only [chatStreamFrom]
  cases h1 : post 1 with
  | none =>
    cases h2 : post 2 with
    | none => simp [onError]
    | some e => cases e <;> simp [onError]
  | some e => cases e <;> simp [onError]
/-! ## The overflow loop of `plainBuffer` -/

theorem utf8Decode_encodeCodePoints_append :
    ∀ (cps : List Nat) (rest : Bytes), (∀ c ∈ cps, IsScalar c) →
      utf8DecodeCodePoints (cps.flatMap utf8EncodeCodePoint ++ rest) none =
        cps ++ utf8DecodeCodePoints rest none := by
  intro cps
  induction cps with
  | nil => intro rest _; rfl
  | cons c cps ih =>
    intro rest h
    rw [List.flatMap_cons, List.append_assoc,
      utf8Decode_encodeCodePoint (h c (List.mem_cons_self c cps)),
      ih rest fun d hd => h d (List.mem_cons_of_mem c hd)]
    rfl

theorem isScalar_of_bmp {s : JSString} (h : IsBmpString s) : ∀ c ∈ s, IsScalar c :=
  fun c hc => ⟨by have := (h c hc).1; omega, (h c hc).2⟩

theorem flatMap_codePointUnits_of_bmp : ∀ s : JSString, IsBmpString s →
    s.flatMap codePointUnits = s := by
  intro s
  induction s with
  | nil => intro _; rfl
  | cons c s ih =>
    intro h
    rw [List.flatMap_cons, ih fun u hu => h u (List.mem_cons_of_mem c hu)]
    simp [codePointUnits, (h c (List.mem_cons_self c s)).1]

theorem utf8Encode_of_bmp {s : JSString} (h : IsBmpString s) :
    utf8Encode s = s.flatMap utf8EncodeCodePoint := by
  rw [utf8Encode, codePoints_of_bmp s h]

/-- A text of `1998` bytes followed by the 3-byte character `中`: the cut at byte `2000` falls
after the second byte of `中`; each side decodes its part of the character to U+FFFD. -/
theorem overflowStep_cut (a : JSString) (ha : IsBmpString a) (hlen : byteLength a = 1998) :
    overflowStep (a ++ [0x4E2D]) = (a ++ [0xFFFD], [0xFFFD]) := by
  have hc : IsBmpString [0x4E2D] := by decide
  have henc : utf8Encode (a ++ [0x4E2D]) = a.flatMap utf8EncodeCodePoint ++ [0xE4, 0xB8, 0xAD] := by
    rw [utf8Encode_append_of_bmp ha hc, utf8Encode_of_bmp ha]
    rfl
  have hl : (a.flatMap utf8EncodeCodePoint).length = 1998 := by
    rw [← utf8Encode_of_bmp ha]; exact hlen
  have hmax : MAX_SEGMENT_BYTES.toNat = 1998 + 2 := by decide
  have htake : (a.flatMap utf8EncodeCodePoint ++ [0xE4, 0xB8, 0xAD]).take (1998 + 2) =
      a.flatMap utf8EncodeCodePoint ++ [0xE4, 0xB8] := by
    rw [← hl, List.take_append]; rfl
  have hdrop : (a.flatMap utf8EncodeCodePoint ++ [0xE4, 0xB8, 0xAD]).drop (1998 + 2) = [0xAD] := by
    rw [← hl, List.drop_append]; rfl
  unfold overflowStep
  simp only [henc, hmax, htake, hdrop]
  have h1 : utf8Decode (a.flatMap utf8EncodeCodePoint ++ [0xE4, 0xB8]) = a ++ [0xFFFD] := by
    unfold utf8Decode
    rw [utf8Decode_encodeCodePoints_append a _ (isScalar_of_bmp ha)]
    have e : utf8DecodeCodePoints [0xE4, 0xB8] none = [0xFFFD] := by decide
    rw [e, List.flatMap_append, flatMap_codePointUnits_of_bmp a ha]
    rfl
  have h2 : utf8Decode [0xAD] = [0xFFFD] := by decide
  rw [h1, h2]

theorem isBmpString_replicate (n c : Nat) (hc : c < 0x10000 ∧ isSurrogate c = false) :
    IsBmpString (List.replicate n c) := by
  intro u hu
  rw [List.eq_of_mem_replicate hu]
  exact hc

theorem byteLength_append_of_bmp {s t : JSString} (hs : IsBmpString s) (ht : IsBmpString t) :
    byteLength (s ++ t) = byteLength s + byteLength t := by
  simp [byteLength, utf8Encode_append_of_bmp hs ht]

theorem byteLength_replicate_zhong (n : Nat) : byteLength (List.replicate n 0x4E2D) = 3 * n := by
  induction n with
  | zero => rfl
  | succ n ih =>
    have e : List.replicate (n + 1) 0x4E2D = [0x4E2D] ++ List.replicate n 0x4E2D := rfl
    rw [e, byteLength_append_of_bmp (by decide) (isBmpString_replicate n _ (by decide)), ih]
    have : byteLength [0x4E2D] = 3 := by decide
    omega

/-- C16 (failing input): `plainBuffer` is `中` 667 times, 2001 bytes. The loop cuts the buffer at
byte 2000, inside the last character: `head` is `中` 666 times followed by U+FFFD, 2001 bytes long,
`tail` is U+FFFD, and `head` followed by `tail` is not `plainBuffer`. -/
theorem overflowStep_splits_codepoint :
    byteLength (List.replicate 667 0x4E2D) = 2001 ∧
      overflowStep (List.replicate 667 0x4E2D) =
        (List.replicate 666 0x4E2D ++ [0xFFFD], [0xFFFD]) ∧
      (overflowStep (List.replicate 667 0x4E2D)).1 ++ (overflowStep (List.replicate 667 0x4E2D)).2
        ≠ List.replicate 667 0x4E2D ∧
      byteLength (overflowStep (List.replicate 667 0x4E2D)).1 = 2001 := by
  have hb := isBmpString_replicate 666 0x4E2D (by decide)
  have e : List.replicate 667 0x4E2D = List.replicate 666 0x4E2D ++ [0x4E2D] := by
    rw [show (667 : Nat) = 666 + 1 from rfl, List.replicate_succ']
  have hstep := overflowStep_cut (List.replicate 666 0x4E2D) hb
    (by rw [byteLength_replicate_zhong])
  rw [← e] at hstep
  refine ⟨by rw [byteLength_replicate_zhong], hstep, ?_, ?_⟩
  · rw [hstep]
    intro h
    have := congrArg List.length h
    simp only [List.length_append, List.length_replicate, List.length_cons, List.length_nil]
      at this
    omega
  · rw [hstep]
    simp only
    rw [byteLength_append_of_bmp hb (by decide), byteLength_replicate_zhong]
    have : byteLength [0xFFFD] = 3 := by decide
    omega
/-! ## The session state -/

theorem dataHandler_chunkBuffer (s : StreamState) (chunkStr : JSString) :
    (dataHandler s chunkStr).1.chunkBuffer = [] := rfl

theorem runData_chunkBuffer : ∀ (chunks : List JSString) (s : StreamState),
    s.chunkBuffer = [] ∨ chunks ≠ [] → (runData s chunks).1.chunkBuffer = [] := by
  intro chunks
  induction chunks with
  | nil =>
    intro s h
    rcases h with h | h
    · exact h
    · exact absurd rfl h
  | cons chunk rest ih =>
    intro s _
    rw [runData]
    exact ih _ (Or.inl (dataHandler_chunkBuffer s chunk))

/-- C17: after every `'data'` event `chunkBuffer` is the empty string, for every sequence of
chunks; so the guard of the `'end'` handler on `chunkBuffer` is false, `extractIncompleteModules`
is not run and the handler hands to `onChunk` the segments of `plainBuffer` only. The text
`"<think>abc"`, whose tag is left open, is not emitted as the module that
`extractIncompleteModules` would find: it is sent as the leftover text `"abc"`. -/
theorem chunkBuffer_empty_after_data :
    (∀ (s : StreamState) (chunkStr : JSString), (dataHandler s chunkStr).1.chunkBuffer = []) ∧
      (∀ chunks : List JSString, (runData .init chunks).1.chunkBuffer = []) ∧
      (∀ chunks : List JSString, trim (runData .init chunks).1.chunkBuffer = []) ∧
      (∀ chunks : List JSString, endSegments (runData .init chunks).1 =
        if trim (runData .init chunks).1.plainBuffer ≠ [] then
          splitByBytes (runData .init chunks).1.plainBuffer MAX_SEGMENT_BYTES
        else []) ∧
      extractIncompleteModules (js "<think>abc") = [⟨js "think", js "abc"⟩] ∧
      runData .init [js "<think>abc"] = (⟨js "<think>abc", [], js "abc"⟩, []) ∧
      endSegments (runData .init [js "<think>abc"]).1 = [js "abc"] := by
  have h2 : ∀ chunks : List JSString, (runData .init chunks).1.chunkBuffer = [] :=
    fun chunks => runData_chunkBuffer chunks .init (Or.inl rfl)
  refine ⟨dataHandler_chunkBuffer, h2, fun chunks => by rw [h2]; rfl, fun chunks => ?_,
    by decide, by decide, by decide⟩
  unfold endSegments
  rw [h2]
  simp [trim]
/-! ## The fuel of the pattern matcher is never used up -/

theorem starIter_fuel (greedy : Bool) (step : Pos → List Pos) :
    ∀ (fuel : Nat) (st : Pos), st.2.length ≤ fuel →
      starIter greedy step fuel st = starIter greedy step (fuel + 1) st := by
  intro fuel
  induction fuel with
  | zero =>
    intro st h
    have h0 : st.2.length = 0 := by omega
    simp [starIter, h0]
  | succ n ih =>
    intro st h
    conv_lhs => rw [starIter]
    conv_rhs => rw [starIter]
    have e : ((step st).filter fun st2 => decide (st2.2.length < st.2.length)).flatMap
          (starIter greedy step n) =
        ((step st).filter fun st2 => decide (st2.2.length < st.2.length)).flatMap
          (starIter greedy step (n + 1)) := by
      apply List.flatMap_congr
      intro st2 h2
      have hlt := (List.mem_filter.1 h2).2
      simp only [decide_eq_true_eq] at hlt
      exact ih st2 (by omega)
    simp only [e]

theorem starIter_length_le (greedy : Bool) (step : Pos → List Pos) :
    ∀ (fuel : Nat) (st st2 : Pos), st2 ∈ starIter greedy step fuel st →
      st2.2.length ≤ st.2.length := by
  intro fuel
  induction fuel with
  | zero =>
    intro st st2 h
    simp only [starIter, List.mem_singleton] at h
    rw [h]
  | succ n ih =>
    intro st st2 h
    rw [starIter] at h
    have hmore : st2 ∈ ((step st).filter fun s => decide (s.2.length < st.2.length)).flatMap
        (starIter greedy step n) → st2.2.length ≤ st.2.length := by
      intro hm
      obtain ⟨s, hs, hs2⟩ := List.mem_flatMap.1 hm
      have hlt := (List.mem_filter.1 hs).2
      simp only [decide_eq_true_eq] at hlt
      have := ih s st2 hs2
      omega
    cases greedy with
    | true =>
      simp only [if_true] at h
      rcases List.mem_append.1 h with h1 | h1
      · exact hmore h1
      · rw [List.mem_singleton.1 h1]
    | false =>
      simp only [Bool.false_eq_true, if_false] at h
      rcases List.mem_cons.1 h with h1 | h1
      · rw [h1]
      · exact hmore h1

theorem run_length_le : ∀ (r : Re) (st st2 : Pos), st2 ∈ r.run st →
    st2.2.length ≤ st.2.length := by
  intro r
  induction r with
  | empty =>
    intro st st2 h
    simp only [Re.run, List.mem_singleton] at h
    rw [h]
  | unit p =>
    intro st st2 h
    obtain ⟨i, l⟩ := st
    cases l with
    | nil => simp [Re.run] at h
    | cons c rest =>
      simp only [Re.run] at h
      split_ifs at h with hp
      · simp only [List.mem_singleton] at h
        rw [h]; simp
      · simp at h
  | seq a b iha ihb =>
    intro st st2 h
    simp only [Re.run] at h
    obtain ⟨s, hs, hs2⟩ := List.mem_flatMap.1 h
    have := iha st s hs
    have := ihb s st2 hs2
    omega
  | alt a b iha ihb =>
    intro st st2 h
    simp only [Re.run] at h
    rcases List.mem_append.1 h with h1 | h1
    · exact iha st st2 h1
    · exact ihb st st2 h1
  | star g a _ =>
    intro st st2 h
    simp only [Re.run] at h
    exact starIter_length_le g _ _ st st2 h
  | bos =>
    intro st st2 h
    simp only [Re.run] at h
    split_ifs at h
    · simp only [List.mem_singleton] at h
      rw [h]
    · simp at h

theorem progress_seq_unit (p : Nat → Bool) (b : Re) : (Re.seq (.unit p) b).Progress := by
  intro st st2 h
  simp only [Re.run] at h
  obtain ⟨s, hs, hs2⟩ := List.mem_flatMap.1 h
  have h2 := run_length_le b s st2 hs2
  obtain ⟨i, l⟩ := st
  cases l with
  | nil => simp at hs
  | cons c rest =>
    simp only at hs
    split_ifs at hs with hp
    · simp only [List.mem_singleton] at hs
      rw [hs] at h2
      simp only [List.length_cons] at h2 ⊢
      omega
    · simp at hs

theorem progress_seq {a : Re} (h : a.Progress) (b : Re) : (Re.seq a b).Progress := by
  intro st st2 hm
  simp only [Re.run] at hm
  obtain ⟨s, hs, hs2⟩ := List.mem_flatMap.1 hm
  have := h st s hs
  have := run_length_le b s st2 hs2
  omega

theorem lazyCapture_length_le (b : Re) : ∀ (rest : List Nat) (i : Nat) (cap : List Nat)
    (r : List Nat × Pos), lazyCapture b rest i cap = some r → r.2.2.length ≤ rest.length := by
  intro rest
  induction rest with
  | nil =>
    intro i cap r h
    rw [lazyCapture] at h
    cases hb : b.run (i, []) with
    | nil => simp [hb] at h
    | cons st l =>
      simp only [hb, Option.some.injEq] at h
      have := run_length_le b (i, []) st (by rw [hb]; exact List.mem_cons_self st l)
      rw [← h]
      exact this
  | cons c rest ih =>
    intro i cap r h
    rw [lazyCapture] at h
    cases hb : b.run (i, c :: rest) with
    | nil =>
      simp only [hb] at h
      have := ih _ _ _ h
      simp only [List.length_cons]
      omega
    | cons st l =>
      simp only [hb, Option.some.injEq] at h
      have := run_length_le b (i, c :: rest) st (by rw [hb]; exact List.mem_cons_self st l)
      rw [← h]
      exact this

theorem firstSome_mem {α β : Type} (f : α → Option β) : ∀ (l : List α) (y : β),
    firstSome f l = some y → ∃ x ∈ l, f x = some y := by
  intro l
  induction l with
  | nil => intro y h; simp [firstSome] at h
  | cons x xs ih =>
    intro y h
    rw [firstSome] at h
    cases hx : f x with
    | some z =>
      simp only [hx, Option.some.injEq] at h
      exact ⟨x, List.mem_cons_self x xs, by rw [hx, h]⟩
    | none =>
      simp only [hx] at h
      obtain ⟨w, hw, hw2⟩ := ih y h
      exact ⟨w, List.mem_cons_of_mem x hw, hw2⟩

theorem matchGroupAt_progress {a : Re} (ha : a.Progress) (b : Re) (st : Pos)
    (r : List Nat × Pos) (h : matchGroupAt a b st = some r) :
    r.2.2.length < st.2.length := by
  unfold matchGroupAt at h
  obtain ⟨s, hs, hs2⟩ := firstSome_mem _ _ _ h
  have := ha st s hs
  have := lazyCapture_length_le b _ _ _ _ hs2
  omega

/-- The fuel of the `exec` loop is never used up when the pattern consumes text. -/
theorem execAll_fuel {a : Re} (ha : a.Progress) (b : Re) :
    ∀ (fuel : Nat) (st : Pos), st.2.length + 1 ≤ fuel →
      execAll a b fuel st = execAll a b (fuel + 1) st := by
  intro fuel
  induction fuel with
  | zero => intro st h; omega
  | succ n ih =>
    intro st h
    conv_lhs => rw [execAll]
    conv_rhs => rw [execAll]
    cases hm : matchGroupAt a b st with
    | some r =>
      have := matchGroupAt_progress ha b st r hm
      simp only
      rw [ih r.2 (by omega)]
    | none =>
      obtain ⟨i, l⟩ := st
      cases l with
      | nil => rfl
      | cons c rest =>
        simp only
        rw [ih (i + 1, rest) (by simp only [List.length_cons] at h ⊢; omega)]

theorem mermaid_patterns_progress :
    fenceOpen.Progress ∧ tagOpen.Progress ∧ codeOpen.Progress :=
  ⟨progress_seq (progress_seq_unit _ _) _, progress_seq (progress_seq_unit _ _) _,
    progress_seq (progress_seq_unit _ _) _⟩

theorem replaceAll_cons (pat rep : List Nat) (fuel c : Nat) (rest : List Nat) :
    replaceAll pat rep (fuel + 1) (c :: rest) =
      if pat.isPrefixOf (c :: rest) then
        rep ++ replaceAll pat rep fuel ((c :: rest).drop pat.length)
      else c :: replaceAll pat rep fuel rest := rfl

/-- The fuel of `replaceAll` is never used up. -/
theorem replaceAll_fuel (pat rep : List Nat) (hpat : pat ≠ []) :
    ∀ (fuel : Nat) (s : List Nat), s.length + 1 ≤ fuel →
      replaceAll pat rep fuel s = replaceAll pat rep (fuel + 1) s := by
  intro fuel
  induction fuel with
  | zero => intro s h; omega
  | succ n ih =>
    intro s h
    cases s with
    | nil => simp [replaceAll]
    | cons c rest =>
      have hp : 0 < pat.length := List.length_pos.2 hpat
      rw [replaceAll_cons, replaceAll_cons]
      split_ifs with hpre
      · rw [ih _ (by simp only [List.length_drop, List.length_cons] at h ⊢; omega)]
      · rw [ih rest (by simp only [List.length_cons] at h; omega)]
/-! ## The fuel of `extractIncompleteModules` is never used up -/

theorem incompleteStep_skip_bounds {buffer : JSString} {cursor c : Nat}
    (h : incompleteStep buffer cursor = .skip c) : cursor < c ∧ c ≤ buffer.length := by
  unfold incompleteStep at h
  cases ho : indexOf buffer [0x3C] cursor with
  | none => simp [ho] at h
  | some openIdx =>
    have hob := indexOf_bounds ho
    simp only [ho] at h
    cases hg : indexOf buffer [0x3E] (openIdx + 1) with
    | none => simp [hg] at h
    | some gtIdx =>
      have hgb := indexOf_bounds hg
      simp only [hg] at h
      simp only [List.length_nil] at hob hgb
      split_ifs at h with h1
      · simp only [ScanStep.skip.injEq] at h
        omega
      · split at h
        · simp only [ScanStep.skip.injEq] at h
          omega
        · simp at h

theorem incompleteStep_extract_bounds {buffer : JSString} {cursor : Nat} {m : Module}
    {b : JSString} (h : incompleteStep buffer cursor = .extract m b) :
    b.length < buffer.length := by
  unfold incompleteStep at h
  cases ho : indexOf buffer [0x3C] cursor with
  | none => simp [ho] at h
  | some openIdx =>
    have hob := indexOf_bounds ho
    simp only [ho] at h
    cases hg : indexOf buffer [0x3E] (openIdx + 1) with
    | none => simp [hg] at h
    | some gtIdx =>
      simp only [hg] at h
      simp only [List.length_nil] at hob
      split_ifs at h with h1
      split at h
      · simp at h
      · simp only [ScanStep.extract.injEq] at h
        rw [← h.2]
        simp only [slice, List.length_take, List.length_drop]
        omega

theorem incompleteLoop_fuel :
    ∀ (fuel : Nat) (buffer : JSString) (cursor : Nat) (modules : List Module),
      extractFuel buffer cursor ≤ fuel →
      incompleteLoop fuel buffer cursor modules =
        incompleteLoop (fuel + 1) buffer cursor modules := by
  intro fuel
  induction fuel with
  | zero =>
    intro buffer cursor modules hf
    have := extractFuel_pos buffer cursor
    omega
  | succ n ih =>
    intro buffer cursor modules hf
    conv_lhs => rw [incompleteLoop]
    conv_rhs => rw [incompleteLoop]
    cases hs : incompleteStep buffer cursor with
    | done => rfl
    | skip c =>
      have hb := incompleteStep_skip_bounds hs
      have : extractFuel buffer c < extractFuel buffer cursor := by
        unfold extractFuel; omega
      exact ih _ _ _ (by omega)
    | extract m b =>
      have hlt := incompleteStep_extract_bounds hs
      have : extractFuel b 0 < extractFuel buffer cursor := by
        unfold extractFuel
        have h1 : (b.length + 1) * (b.length + 1) ≤ buffer.length * buffer.length :=
          Nat.mul_le_mul hlt hlt
        have h2 : b.length * (b.length + 1) + (b.length - 0) + 1 =
            (b.length + 1) * (b.length + 1) := by
          simp only [Nat.sub_zero]; ring
        have h3 : buffer.length * (buffer.length + 1) =
            buffer.length * buffer.length + buffer.length := by ring
        omega
      exact ih _ _ _ (by omega)
/-! ## The overflow loop ends: the tail kept is shorter than the buffer -/

theorem codePoints_lt : ∀ s : JSString, ValidUnits s → ∀ c ∈ codePoints s, c < 0x110000 := by
  intro s
  induction s using codePoints.induct with
  | case1 => intro _ c hc; simp [codePoints] at hc
  | case2 u =>
    intro hv c hc
    simp only [codePoints, List.mem_singleton] at hc
    have := hv u (List.mem_singleton_self u)
    omega
  | case3 u v rest h ih =>
    intro hv c hc
    have hpair := h
    simp only [Bool.and_eq_true, isHighSurrogate, isLowSurrogate, decide_eq_true_eq] at hpair
    simp only [codePoints, h, if_true, List.mem_cons] at hc
    rcases hc with hc | hc
    · omega
    · exact ih (fun w hw => hv w (List.mem_cons_of_mem u (List.mem_cons_of_mem v hw))) c hc
  | case4 u v rest h ih =>
    intro hv c hc
    simp only [codePoints, h, if_false, List.mem_cons, Bool.false_eq_true] at hc
    rcases hc with hc | hc
    · have := hv u (List.mem_cons_self u _)
      omega
    · exact ih (fun w hw => hv w (List.mem_cons_of_mem u hw)) c hc

theorem utf8EncodeCodePoint_shape (c : Nat) :
    ∃ (lead : Nat) (conts : Bytes), utf8EncodeCodePoint c = lead :: conts ∧ (∀ b ∈ conts, IsCont b) ∧
      conts.length ≤ 3 := by
  unfold utf8EncodeCodePoint
  split_ifs
  · exact ⟨_, [], rfl, by simp, by simp⟩
  · exact ⟨_, _, rfl, by simp [IsCont]; omega, by simp⟩
  · exact ⟨_, _, rfl, by simp [IsCont], by simp⟩
  · refine ⟨_, _, rfl, ?_, by simp⟩
    intro b hb
    simp only [List.mem_cons, List.mem_singleton, List.not_mem_nil, or_false] at hb
    rcases hb with rfl | rfl <;> simp only [IsCont] <;> omega
  · refine ⟨_, _, rfl, ?_, by simp⟩
    intro b hb
    simp only [List.mem_cons, List.mem_singleton, List.not_mem_nil, or_false] at hb
    rcases hb with rfl | rfl | rfl <;> simp only [IsCont] <;> omega

/-- What is left of a UTF-8 encoding after `n` bytes: at most three continuation bytes of a
character cut in two, then the encoding of the characters that follow. -/
theorem drop_encoding : ∀ (cps : List Nat) (n : Nat),
    ∃ (k : Bytes) (rest : List Nat),
      (cps.flatMap utf8EncodeCodePoint).drop n = k ++ rest.flatMap utf8EncodeCodePoint ∧
      (∀ b ∈ k, IsCont b) ∧ k.length ≤ 3 ∧ ∀ c ∈ rest, c ∈ cps := by
  intro cps
  induction cps with
  | nil => intro n; exact ⟨[], [], by simp, by simp, by simp, by simp⟩
  | cons c cs ih =>
    intro n
    obtain ⟨lead, conts, henc, hconts, hlen⟩ := utf8EncodeCodePoint_shape c
    rcases Nat.eq_zero_or_pos n with h0 | hpos
    · subst h0
      exact ⟨[], c :: cs, by simp, by simp, by simp, fun _ h => h⟩
    · rcases Nat.lt_or_ge n (utf8EncodeCodePoint c).length with hlt | hge
      · refine ⟨conts.drop (n - 1), cs, ?_, fun b hb => hconts b (List.mem_of_mem_drop hb), ?_,
          fun d hd => List.mem_cons_of_mem c hd⟩
        · rw [List.flatMap_cons, List.drop_append_of_le_length (Nat.le_of_lt hlt), henc]
          obtain ⟨m, rfl⟩ : ∃ m, n = m + 1 := ⟨n - 1, by omega⟩
          simp
        · have := List.length_drop (n - 1) conts
          omega
      · obtain ⟨k, rest, h1, h2, h3, h4⟩ := ih (n - (utf8EncodeCodePoint c).length)
        refine ⟨k, rest, ?_, h2, h3, fun d hd => List.mem_cons_of_mem c (h4 d hd)⟩
        rw [List.flatMap_cons, List.drop_append_eq_append_drop,
          List.drop_of_length_le hge, List.nil_append, h1]

theorem utf8Decode_continuation : ∀ (k rest : Bytes), (∀ b ∈ k, IsCont b) →
    utf8DecodeCodePoints (k ++ rest) none =
      List.replicate k.length 0xFFFD ++ utf8DecodeCodePoints rest none := by
  intro k
  induction k with
  | nil => intro rest _; rfl
  | cons b k ih =>
    intro rest h
    have hb := h b (List.mem_cons_self b k)
    simp only [IsCont] at hb
    have e : utf8Lead b = (none, [0xFFFD]) := by
      unfold utf8Lead
      rw [if_neg (by omega), if_neg (by omega), if_neg (by omega), if_neg (by omega)]
    rw [List.cons_append, utf8DecodeCodePoints, utf8Step, e,
      ih rest fun d hd => h d (List.mem_cons_of_mem b hd)]
    rfl
theorem utf8Decode_encode_any {c : Nat} (hc : c < 0x110000) (rest : Bytes) :
    utf8DecodeCodePoints (utf8EncodeCodePoint c ++ rest) none =
      replaceSurrogate c :: utf8DecodeCodePoints rest none := by
  unfold replaceSurrogate
  split_ifs with hs
  · rw [utf8EncodeCodePoint_surrogate hs]
    have h := utf8Decode_three 0xEF 0xBF 0xBD rest (by omega) (by decide) (by omega)
    simpa using h
  · exact utf8Decode_encodeCodePoint ⟨hc, by simpa using hs⟩ rest

theorem utf8Decode_encode_list : ∀ (cps : List Nat), (∀ c ∈ cps, c < 0x110000) →
    utf8DecodeCodePoints (cps.flatMap utf8EncodeCodePoint) none = cps.map replaceSurrogate := by
  intro cps
  induction cps with
  | nil => intro _; rfl
  | cons c cps ih =>
    intro h
    rw [List.flatMap_cons, utf8Decode_encode_any (h c (List.mem_cons_self c cps)),
      ih fun d hd => h d (List.mem_cons_of_mem c hd)]
    rfl

theorem isScalar_replaceSurrogate {c : Nat} (hc : c < 0x110000) :
    IsScalar (replaceSurrogate c) := by
  unfold replaceSurrogate
  split_ifs with hs
  · exact ⟨by omega, by decide⟩
  · exact ⟨hc, by simpa using hs⟩

theorem length_encode_replaceSurrogate (c : Nat) :
    (utf8EncodeCodePoint (replaceSurrogate c)).length = (utf8EncodeCodePoint c).length := by
  unfold replaceSurrogate
  split_ifs with hs
  · rw [utf8EncodeCodePoint_surrogate hs]; decide
  · rfl

theorem codePoints_cons_of_not_high {u : Nat} (h : isHighSurrogate u = false) (s : JSString) :
    codePoints (u :: s) = u :: codePoints s := by
  cases s with
  | nil => rfl
  | cons v s => rw [codePoints, h]; rfl

/-- The code points of the code units written for scalar values are those values. -/
theorem codePoints_codePointUnits : ∀ cps : List Nat, (∀ c ∈ cps, IsScalar c) →
    codePoints (cps.flatMap codePointUnits) = cps ∧ ValidUnits (cps.flatMap codePointUnits) := by
  intro cps
  induction cps with
  | nil => intro _; exact ⟨rfl, fun u hu => by simp at hu⟩
  | cons c cps ih =>
    intro h
    obtain ⟨hlt, hs⟩ := h c (List.mem_cons_self c cps)
    obtain ⟨ih1, ih2⟩ := ih fun d hd => h d (List.mem_cons_of_mem c hd)
    have hs2 : ¬ (0xD800 ≤ c ∧ c ≤ 0xDFFF) := by simpa [isSurrogate] using hs
    rw [List.flatMap_cons]
    by_cases hb : c < 0x10000
    · have e : codePointUnits c = [c] := by simp [codePointUnits, hb]
      have hh : isHighSurrogate c = false := by
        simp only [isHighSurrogate, Bool.and_eq_false_imp, decide_eq_true_eq,
          decide_eq_false_iff_not]
        omega
      rw [e]
      refine ⟨?_, ?_⟩
      · rw [List.singleton_append, codePoints_cons_of_not_high hh, ih1]
      · intro u hu
        rcases List.mem_append.1 hu with h1 | h1
        · rw [List.mem_singleton.1 h1]; exact hb
        · exact ih2 u h1
    · have e : codePointUnits c =
          [0xD800 + (c - 0x10000) / 0x400, 0xDC00 + (c - 0x10000) % 0x400] := by
        simp [codePointUnits, hb]
      have hhi : isHighSurrogate (0xD800 + (c - 0x10000) / 0x400) = true := by
        simp only [isHighSurrogate, Bool.and_eq_true, decide_eq_true_eq]
        omega
      have hlo : isLowSurrogate (0xDC00 + (c - 0x10000) % 0x400) = true := by
        simp only [isLowSurrogate, Bool.and_eq_true, decide_eq_true_eq]
        omega
      rw [e]
      refine ⟨?_, ?_⟩
      · simp only [List.cons_append, List.nil_append]
        rw [codePoints, hhi, hlo, ih1]
        have e2 : 0x10000 + (0xD800 + (c - 0x10000) / 0x400 - 0xD800) * 0x400 +
            (0xDC00 + (c - 0x10000) % 0x400 - 0xDC00) = c := by omega
        simp only [Bool.and_self, if_true]
        rw [e2]
      · intro u hu
        rcases List.mem_append.1 hu with h1 | h1
        · simp only [List.mem_cons, List.mem_singleton, List.not_mem_nil, or_false] at h1
          rcases h1 with h1 | h1
          · rw [h1]; omega
          · rw [h1]; omega
        · exact ih2 u h1
theorem length_encode_replicate_fffd (n : Nat) :
    ((List.replicate n 0xFFFD).flatMap utf8EncodeCodePoint).length = 3 * n := by
  induction n with
  | zero => rfl
  | succ n ih =>
    rw [List.replicate_succ, List.flatMap_cons, List.length_append, ih]
    have : (utf8EncodeCodePoint 0xFFFD).length = 3 := by decide
    omega

theorem length_encode_map_replaceSurrogate (cps : List Nat) :
    ((cps.map replaceSurrogate).flatMap utf8EncodeCodePoint).length =
      (cps.flatMap utf8EncodeCodePoint).length := by
  induction cps with
  | nil => rfl
  | cons c cps ih =>
    rw [List.map_cons, List.flatMap_cons, List.flatMap_cons, List.length_append,
      List.length_append, ih, length_encode_replaceSurrogate]

/-- The tail that a round of the overflow loop keeps is a string of code units again, and is
shorter in bytes than the buffer: what is cut off after byte 2000 grows by at most 6 bytes when it
is decoded (three continuation bytes become three U+FFFD). -/
theorem overflowStep_tail (p : JSString) (hv : ValidUnits p)
    (hlen : MAX_SEGMENT_BYTES < (byteLength p : Int)) :
    ValidUnits (overflowStep p).2 ∧ byteLength (overflowStep p).2 < byteLength p := by
  have hmax : MAX_SEGMENT_BYTES.toNat = 2000 := by decide
  have hlen2 : 2000 < (utf8Encode p).length := by
    have : MAX_SEGMENT_BYTES = 2000 := rfl
    rw [this] at hlen
    unfold byteLength at hlen
    omega
  obtain ⟨k, rest, hdrop, hk, hk3, hrest⟩ := drop_encoding (codePoints p) 2000
  have hlt : ∀ c ∈ rest, c < 0x110000 := fun c hc => codePoints_lt p hv c (hrest c hc)
  have hdl := congrArg List.length hdrop
  rw [List.length_drop, List.length_append] at hdl
  have htail : (overflowStep p).2 =
      (List.replicate k.length 0xFFFD ++ rest.map replaceSurrogate).flatMap codePointUnits := by
    unfold overflowStep utf8Decode
    simp only [hmax]
    unfold utf8Encode
    rw [hdrop, utf8Decode_continuation k _ hk, utf8Decode_encode_list rest hlt]
  have hT : ∀ c ∈ List.replicate k.length 0xFFFD ++ rest.map replaceSurrogate, IsScalar c := by
    intro c hc
    rcases List.mem_append.1 hc with h1 | h1
    · rw [List.eq_of_mem_replicate h1]
      exact ⟨by omega, by decide⟩
    · obtain ⟨d, hd, rfl⟩ := List.mem_map.1 h1
      exact isScalar_replaceSurrogate (hlt d hd)
  obtain ⟨e1, e2⟩ := codePoints_codePointUnits _ hT
  rw [htail]
  refine ⟨e2, ?_⟩
  unfold byteLength
  conv_lhs => rw [utf8Encode, e1]
  rw [List.flatMap_append, List.length_append, length_encode_replicate_fffd,
    length_encode_map_replaceSurrogate]
  have : (utf8Encode p).length = ((codePoints p).flatMap utf8EncodeCodePoint).length := rfl
  omega

/-- The fuel of the overflow loop is never used up: the byte length of `plainBuffer` bounds the
number of rounds. -/
theorem overflowLoop_fuel : ∀ (fuel : Nat) (p : JSString) (emitted : List JSString),
    ValidUnits p → byteLength p ≤ fuel →
      overflowLoop fuel p emitted = overflowLoop (fuel + 1) p emitted := by
  intro fuel
  induction fuel with
  | zero =>
    intro p emitted _ h
    rw [overflowLoop, overflowLoop]
    have : ¬ ((byteLength p : Int) > MAX_SEGMENT_BYTES) := by
      have : MAX_SEGMENT_BYTES = 2000 := rfl
      rw [this]; omega
    rw [if_neg this]
  | succ n ih =>
    intro p emitted hv h
    conv_lhs => rw [overflowLoop]
    conv_rhs => rw [overflowLoop]
    split_ifs with hgt
    · obtain ⟨h1, h2⟩ := overflowStep_tail p hv hgt
      exact ih _ _ h1 (by omega)
    · rfl
/-- Any fuel from the byte length of the buffer upwards gives the same run of the overflow loop. -/
theorem overflowLoop_fuel_ge (p : JSString) (emitted : List JSString) (hv : ValidUnits p) :
    ∀ extra : Nat, overflowLoop (byteLength p + extra) p emitted =
      overflowLoop (byteLength p) p emitted := by
  intro extra
  induction extra with
  | zero => rfl
  | succ n ih =>
    rw [← ih, ← Nat.add_assoc]
    exact (overflowLoop_fuel (byteLength p + n) p emitted hv (by omega)).symm

/-- With the fuel the data handler gives it, the overflow loop stops because the buffer fits, not
because the fuel is used up: what it leaves in `plainBuffer` is at most 2000 bytes long. -/
theorem overflowLoop_leaves_fitting : ∀ (fuel : Nat) (p : JSString) (emitted : List JSString),
    ValidUnits p → byteLength p ≤ fuel →
      (byteLength (overflowLoop fuel p emitted).2 : Int) ≤ MAX_SEGMENT_BYTES := by
  intro fuel
  induction fuel with
  | zero =>
    intro p emitted _ h
    rw [overflowLoop]
    have : MAX_SEGMENT_BYTES = 2000 := rfl
    rw [this]
    show (byteLength p : Int) ≤ 2000
    omega
  | succ n ih =>
    intro p emitted hv h
    rw [overflowLoop]
    split_ifs with hgt
    · obtain ⟨h1, h2⟩ := overflowStep_tail p hv hgt
      exact ih _ _ h1 (by omega)
    · show (byteLength p : Int) ≤ MAX_SEGMENT_BYTES
      omega

end WecomBot
